import Mathlib

/-!
Verification development for the violation lifecycle tracker of the
research-dataset repository.  The definitions below are shallow embeddings of
the Python modules `src/modules/diff_tracker.py`, `src/modules/data_manager.py`,
`src/modules/csv_exporter.py` and `src/modules/flake8_analyzer.py`.
Machine integers are modelled as `Nat`/`Int`; Python strings as `String`;
Python dicts (which iterate in insertion order and overwrite values in place)
as association lists with an in-place update operation.  File-system and
subprocess interactions (git, flake8, feature extraction) are external
collaborators per the specification and are abstracted: diff text and lint
snapshots are inputs, and the feature columns of a row (which the ledger never
reads) are omitted from the row model.
-/

namespace DiffDataset

/-- Python `str.isdigit` restricted to ASCII, as used on flake8 line numbers:
true iff the string is nonempty and all characters are decimal digits. -/
def pyIsDigit (s : String) : Bool :=
  if s.toList = [] then false else s.toList.all Char.isDigit

/-- Python `int(...)` on a digit string: decimal value of the digits. -/
def strToNat (s : String) : Nat :=
  s.toList.foldl (fun n c => n * 10 + (c.toNat - 48)) 0

/-- Python `str(...)` on the integer line numbers the tracker writes back. -/
def intStr (i : Int) : String := toString i

/-- Lookup in an association list modelling a Python dict read `d[k]` / `k in d`. -/
def alookup {α β : Type} [DecidableEq α] (l : List (α × β)) (k : α) : Option β :=
  match l with
  | [] => none
  | (k', v) :: rest => if k' = k then some v else alookup rest k

/-- Python dict write `d[k] = v`: overwrite in place if the key is present
(keeping its original position), append otherwise. -/
def dictInsert {α β : Type} [DecidableEq α] (l : List (α × β)) (k : α) (v : β) :
    List (α × β) :=
  match l with
  | [] => [(k, v)]
  | (k', v') :: rest =>
      if k' = k then (k, v) :: rest else (k', v') :: dictInsert rest k v

/-- Keys of an association list, in insertion order. -/
def dictKeys {α β : Type} : List (α × β) → List α
  | [] => []
  | e :: rest => e.1 :: dictKeys rest

/-- Python `set.add` style insertion used for the dict key sets that only ever
hold a fixed value: append the element unless it is already present. -/
def insertNew (x : Nat) (l : List Nat) : List Nat :=
  if x ∈ l then l else l ++ [x]

/-- Maximum of a list of naturals with 0 for the empty list, modelling the
guarded `max` accumulation over `deleted_lines` / `added_lines`. -/
def listMax (l : List Nat) : Nat := l.foldr max 0

/-- Python `str.split(sep)` for a one-character separator (and, after
filtering empties, `str.split()`): split at every separator character,
keeping empty pieces. -/
def splitPred (p : Char → Bool) : List Char → List (List Char)
  | [] => [[]]
  | c :: cs =>
      if p c then [] :: splitPred p cs
      else
        match splitPred p cs with
        | [] => [[c]]
        | t :: ts => (c :: t) :: ts

/-- Python `str.startswith` on character lists. -/
def listStarts : List Char → List Char → Bool
  | [], _ => true
  | _ :: _, [] => false
  | p :: ps, c :: cs => p = c && listStarts ps cs

/-! ### Hunk header parsing (`DiffTracker._parse_hunk_header`) -/

/-- One parsed unified-diff hunk header `@@ -a[,b] +c[,d] @@`. -/
structure Hunk where
  oldStart : Nat
  oldCount : Nat
  newStart : Nat
  newCount : Nat
deriving DecidableEq, Repr

/-- Greedy scan of a decimal digit prefix, the Lean counterpart of the regex
group `(\d+)` (which is greedy and followed by a non-digit in the pattern). -/
def takeDigits : List Char → List Char × List Char
  | [] => ([], [])
  | c :: cs =>
      if c.isDigit then
        let p := takeDigits cs
        (c :: p.1, p.2)
      else ([], c :: cs)

/-- Numeric value of a scanned digit group, as Python `int` computes it. -/
def digitsToNat (ds : List Char) : Nat :=
  ds.foldl (fun n c => n * 10 + (c.toNat - 48)) 0

/-- Tail of `_parse_hunk_header`'s regex after the old-range part: expects
a space, a plus sign, `(\d+)(?:,(\d+))?` and then the closing blank-`@@`. -/
def parseNewPart (os oc : Nat) : List Char → Option Hunk
  | ' ' :: '+' :: rest =>
      match takeDigits rest with
      | ([], _) => none
      | (c3 :: cs3, r3) =>
          match r3 with
          | ',' :: r4 =>
              match takeDigits r4 with
              | ([], _) => none
              | (d4 :: ds4, r5) =>
                  match r5 with
                  | ' ' :: '@' :: '@' :: _ =>
                      some ⟨os, oc, digitsToNat (c3 :: cs3),
                        digitsToNat (d4 :: ds4)⟩
                  | _ => none
          | ' ' :: '@' :: '@' :: _ => some ⟨os, oc, digitsToNat (c3 :: cs3), 1⟩
          | _ => none
  | _ => none

/-- The regex match of `_parse_hunk_header`:
`^@@ -(\d+)(?:,(\d+))? \+(\d+)(?:,(\d+))? @@` with missing counts defaulting
to 1; `none` models "no match" (the function then returns the empty mapping). -/
def parse_hunk_header (cs : List Char) : Option Hunk :=
  match cs with
  | '@' :: '@' :: ' ' :: '-' :: rest =>
      match takeDigits rest with
      | ([], _) => none
      | (c1 :: cs1, r1) =>
          match r1 with
          | ',' :: r2 =>
              match takeDigits r2 with
              | ([], _) => none
              | (d2 :: ds2, r3) =>
                  parseNewPart (digitsToNat (c1 :: cs1))
                    (digitsToNat (d2 :: ds2)) r3
          | _ => parseNewPart (digitsToNat (c1 :: cs1)) 1 r1
  | _ => none

/-! ### Per-file raw mappings (`_parse_hunk_header` dict / `_process_hunks`) -/

/-- The per-file dict built by `_parse_hunk_header` and merged by
`_process_hunks`: integer keys mapped to `None` are the deleted old lines,
string keys `new_N` mapped to `N` are the added new lines.  Since the value is
determined by the key, the dict is equivalent to its two key sets, kept in
insertion order. -/
structure FileMappings where
  deleted : List Nat
  added : List Nat
deriving DecidableEq, Repr

/-- Mapping contributed by a single parsed hunk header (`_parse_hunk_header`):
deleted old lines `oldStart..oldStart+oldCount-1` and added new lines
`newStart..newStart+newCount-1`. -/
def hunkMapping (h : Hunk) : FileMappings :=
  { deleted := (List.range h.oldCount).map (fun i => h.oldStart + i)
    added := (List.range h.newCount).map (fun i => h.newStart + i) }

/-- Python `dict.update` on the per-file mapping: keys of the second dict are
written into the first (the values are key-determined, so this is key union). -/
def fmUnion (a b : FileMappings) : FileMappings :=
  { deleted := b.deleted.foldl (fun l x => insertNew x l) a.deleted
    added := b.added.foldl (fun l x => insertNew x l) a.added }

/-- Body of the `_process_hunks` loop for a single hunk header line. -/
def processHunksStep (fm : FileMappings) (hl : List Char) : FileMappings :=
  match parse_hunk_header hl with
  | none => fm
  | some h => fmUnion fm (hunkMapping h)

/-- `DiffTracker._process_hunks`: merge the mapping of every hunk header line;
headers that do not match the pattern contribute nothing. -/
def process_hunks (hunkLines : List (List Char)) : FileMappings :=
  hunkLines.foldl processHunksStep ⟨[], []⟩

/-! ### Diff text parsing (`DiffTracker._parse_diff_output`) -/

/-- Fold state of `_parse_diff_output`: the per-file dict built so far, the
current `+++ b/` file (the empty string plays Python `None`/falsy), and the
hunk header lines collected for it. -/
structure DiffAcc where
  result : List (String × FileMappings)
  currentFile : String
  currentHunks : List (List Char)
deriving Repr

/-- Flush of the pending file in `_parse_diff_output`: record its processed
hunks if a file is current and it collected at least one hunk line. -/
def flushFile (acc : DiffAcc) : List (String × FileMappings) :=
  if acc.currentFile ≠ "" ∧ acc.currentHunks ≠ [] then
    dictInsert acc.result acc.currentFile (process_hunks acc.currentHunks)
  else acc.result

/-- One line of `_parse_diff_output`'s scan. -/
def parseDiffStep (acc : DiffAcc) (line : List Char) : DiffAcc :=
  if listStarts "diff --git".toList line then
    { result := flushFile acc, currentFile := "", currentHunks := [] }
  else if listStarts "--- a/".toList line ∨ listStarts "+++ b/".toList line then
    if listStarts "+++ b/".toList line then
      { acc with currentFile := String.mk (line.drop 6) }
    else acc
  else if listStarts "@@".toList line then
    if acc.currentFile ≠ "" then
      { acc with currentHunks := acc.currentHunks ++ [line] }
    else acc
  else acc

/-- `DiffTracker._parse_diff_output`: group hunk header lines by the most
recent `+++ b/` file and process each group. -/
def parse_diff_output (diffText : String) : List (String × FileMappings) :=
  flushFile ((splitPred (fun c => c = '\n') diffText.toList).foldl parseDiffStep
    ⟨[], "", []⟩)

/-! ### Per-file line mapping (`DiffTracker._calculate_file_line_mapping`) -/

/-- A computed per-file line map: old line number to `some` new line number or
`none` (the code's `None`); `_calculate_file_line_mapping` in fact only ever
stores concrete values. -/
abbrev LineMapT : Type := List (Nat × Option Int)

/-- The inner `while` over `deleted_lines`: advance past entries `≤ line_num`,
decrementing the offset for an entry equal to `line_num`. -/
def dropDel (n : Nat) : List Nat → Int → Int × List Nat
  | [], off => (off, [])
  | d :: ds, off =>
      if d ≤ n then dropDel n ds (if d = n then off - 1 else off)
      else (off, d :: ds)

/-- The inner `while` over `added_lines`: advance past entries
`≤ line_num + offset`, incrementing the offset each time. -/
def dropAdd (n : Nat) : List Nat → Int → Int × List Nat
  | [], off => (off, [])
  | a :: rest, off =>
      if (a : Int) ≤ (n : Int) + off then dropAdd n rest (off + 1)
      else (off, a :: rest)

/-- The `for line_num in range(1, max_line + 1)` walk of
`_calculate_file_line_mapping`, producing `line_mapping[line_num] =
line_num + offset` for every scanned line. -/
def calcAux : Nat → Nat → List Nat → List Nat → Int → LineMapT
  | _, 0, _, _, _ => []
  | n, k + 1, del, add, off =>
      let p := dropDel n del off
      let q := dropAdd n add p.1
      (n, some ((n : Int) + q.1)) :: calcAux (n + 1) k p.2 q.2 q.1

/-- The `max_line` computed by `_calculate_file_line_mapping`: the largest
deleted or added line number, and at least 1. -/
def maxLineOf (fm : FileMappings) : Nat :=
  max (max 1 (listMax (List.insertionSort (· ≤ ·) fm.deleted)))
    (listMax (List.insertionSort (· ≤ ·) fm.added))

/-- `DiffTracker._calculate_file_line_mapping`: split the raw per-file dict
into sorted deleted and added line lists and walk lines `1..max_line`. -/
def calculate_file_line_mapping (fm : FileMappings) : LineMapT :=
  let del := List.insertionSort (· ≤ ·) fm.deleted
  let add := List.insertionSort (· ≤ ·) fm.added
  let maxLine := max (max 1 (listMax del)) (listMax add)
  calcAux 1 maxLine del add 0

/-- `DiffTracker.calculate_line_mapping` restricted to its pure core: the
per-file computed line maps of one commit's diff text (the `git show` call
that produces the text is an external collaborator). -/
def calculate_line_mapping (diffText : String) : List (String × LineMapT) :=
  (parse_diff_output diffText).map
    (fun e => (e.1, calculate_file_line_mapping e.2))

/-! ### Raw violations and ledger rows (`data_manager.py`) -/

/-- A raw lint violation as produced by `Flake8Analyzer.parse_flake8_output`:
the 5-tuple `(error_code, file_path, message, context, line_number)`.  The
line number is the string field of the flake8 output.  (The legacy 4-tuple
compatibility branches of `data_manager.py` are never exercised, because
`parse_flake8_output` always emits 5-tuples.) -/
structure Violation where
  ruleId : String
  filePath : String
  message : String
  context : String
  line : String
deriving DecidableEq, Repr

/-- The tracker identity key `(violation_id, file_path, line_number)` used by
`process_violations_batch_optimized`. -/
abbrev VKey : Type := String × String × String

/-- Identity key of a raw violation: `(violation[0], violation[1], violation[4])`. -/
def keyOf (v : Violation) : VKey := (v.ruleId, v.filePath, v.line)

/-- `DataManager._get_violation_category`: category from the first character
of the violation id. -/
def get_violation_category (violationId : String) : String :=
  match violationId.toList with
  | [] => ""
  | c :: _ =>
      let u := c.toUpper
      if u = 'E' then "Error"
      else if u = 'W' then "Warning"
      else if u = 'F' then "Fatal"
      else if u = 'C' then "Complexity"
      else if u = 'N' then "Naming"
      else "Other"

/-- One ledger row as written by `create_violation_row_data`, restricted to
the columns the tracking logic reads or writes: `row[0..7]` and the final
`Fixed` column (`'True'`/`'False'`, modelled as `Bool`).  The 33 feature
columns in between are produced by the external `FeatureExtractor` from the
checked-out file tree and never influence the ledger, so they are omitted. -/
structure Row where
  ruleId : String
  category : String
  filePath : String
  message : String
  line : String
  context : String
  errorCommit : String
  fixCommit : String
  fixed : Bool
deriving DecidableEq, Repr

instance : Inhabited Row :=
  ⟨⟨"", "", "", "", "", "", "", "", false⟩⟩

/-- Identity key re-read from a row: columns `row[0]`, `row[2]`, `row[4]`. -/
def rowKey (r : Row) : VKey := (r.ruleId, r.filePath, r.line)

/-- `DataManager.create_violation_row_data` on a 5-tuple violation (feature
columns omitted, see `Row`). -/
def create_violation_row_data (v : Violation) (commitHash : String)
    (fixed : Bool) (fixCommit : String) : Row :=
  { ruleId := v.ruleId
    category := get_violation_category v.ruleId
    filePath := v.filePath
    message := v.message
    line := v.line
    context := v.context
    errorCommit := commitHash
    fixCommit := fixCommit
    fixed := fixed }

/-- The `violation_tracker` dict: identity key to row index. -/
abbrev Tracker : Type := List (VKey × Nat)

/-- Ledger state threaded through the batch processing: all rows ever
created, and the tracker dict. -/
structure Ledger where
  rows : List Row
  tracker : Tracker
deriving Repr

/-! ### Remap step (`DataManager._update_violation_line_numbers_batch`) -/

/-- Body of the per-entry loop of `_update_violation_line_numbers_batch`:
for one `(violation_key, row_index)` item, possibly rewrite the row's line
number and insert the (possibly renamed) key into the new tracker dict. -/
def remapEntry (lms : List (String × LineMapT)) (acc : List Row × Tracker)
    (e : VKey × Nat) : List Row × Tracker :=
  if (acc.1.getD e.2 default).fixed = false then
    match alookup lms e.1.2.1, pyIsDigit e.1.2.2 with
    | some fmap, true =>
        match alookup fmap (strToNat e.1.2.2) with
        | some (some newLine) =>
            if newLine ≠ (strToNat e.1.2.2 : Int) then
              (acc.1.set e.2 { acc.1.getD e.2 default with line := intStr newLine },
               dictInsert acc.2 (e.1.1, e.1.2.1, intStr newLine) e.2)
            else (acc.1, dictInsert acc.2 e.1 e.2)
        | some none => (acc.1, dictInsert acc.2 e.1 e.2)
        | none => (acc.1, dictInsert acc.2 e.1 e.2)
    | _, _ => (acc.1, dictInsert acc.2 e.1 e.2)
  else (acc.1, dictInsert acc.2 e.1 e.2)

/-- `DataManager._update_violation_line_numbers_batch`: if the commit has no
line mappings the state is untouched; otherwise every tracker item is pushed
through `remapEntry`, rebuilding the tracker from scratch. -/
def update_violation_line_numbers_batch (lms : List (String × LineMapT))
    (rows : List Row) (tracker : Tracker) : List Row × Tracker :=
  if lms = [] then (rows, tracker)
  else tracker.foldl (remapEntry lms) (rows, [])

/-! ### Fixed marking and new-violation marking -/

/-- Body of the fixed-marking loop of `process_violations_batch_optimized`:
an entry whose key is absent from the current snapshot's key set and whose row
is still unfixed gets its fix commit and `Fixed` flag written. -/
def fixEntry (curKeys : List VKey) (commitHash : String) (rows : List Row)
    (e : VKey × Nat) : List Row :=
  if e.1 ∈ curKeys then rows
  else if (rows.getD e.2 default).fixed = false then
    rows.set e.2
      { rows.getD e.2 default with fixCommit := commitHash, fixed := true }
  else rows

/-- The fixed-marking loop over a snapshot of the tracker items. -/
def markFixed (curKeys : List VKey) (commitHash : String) (tracker : Tracker)
    (rows : List Row) : List Row :=
  tracker.foldl (fixEntry curKeys commitHash) rows

/-- The new-violation loop of `process_violations_batch_optimized`: a current
violation whose key is not in the tracker gets a fresh open row appended and
its key inserted, pointing at the new row. -/
def markNew (commitHash : String) (st : List Row × Tracker)
    (cur : List Violation) : List Row × Tracker :=
  cur.foldl
    (fun st v =>
      if (alookup st.2 (keyOf v)).isSome then st
      else
        (st.1 ++ [create_violation_row_data v commitHash false ""],
         dictInsert st.2 (keyOf v) st.1.length))
    st

/-! ### One commit transition and the whole batch run -/

/-- One element of `commits_data`: the commit hash, the raw unified diff text
of the transition from its parent (retrieved externally by `git show`), and
the commit's raw violation snapshot. -/
structure CommitData where
  commit : String
  diffText : String
  violations : List Violation
deriving Repr

/-- The body of the per-commit loop of `process_violations_batch_optimized`:
remap tracked line numbers from the commit's diff, mark entries missing from
the snapshot as fixed, then add unmatched snapshot violations as new rows. -/
def advanceStep (st : Ledger) (cd : CommitData) : Ledger :=
  let lms := calculate_line_mapping cd.diffText
  let p := update_violation_line_numbers_batch lms st.rows st.tracker
  let curKeys := cd.violations.map keyOf
  let rows2 := markFixed curKeys cd.commit p.2 p.1
  let q := markNew cd.commit (rows2, p.2) cd.violations
  ⟨q.1, q.2⟩

/-- The initial-violation loop of `process_violations_batch_optimized`:
every initial violation becomes an open row recorded in the tracker. -/
def initLedger (initial : List Violation) (firstCommit : String) : Ledger :=
  initial.foldl
    (fun (st : Ledger) v =>
      ⟨st.rows ++ [create_violation_row_data v firstCommit false ""],
       dictInsert st.tracker (keyOf v) st.rows.length⟩)
    ⟨[], []⟩

/-- `DataManager.process_violations_batch_optimized` (pure core): seed the
ledger from the first commit's violations, then advance it once per later
commit; the result is the final row list. -/
def process_violations_batch_optimized (initial : List Violation)
    (commitsData : List CommitData) : List Row :=
  match commitsData with
  | [] => []
  | first :: rest => (rest.foldl advanceStep (initLedger initial first.commit)).rows

/-! ### CSV update path (`CSVExporter.update_fix_history_csv`) -/

/-- The matching key the CSV update path uses for a raw violation:
`(violation_id, file_path, message, line_number)` — note that unlike the
batch tracker key it includes the message. -/
def csvKeyOf (v : Violation) : String × String × String × String :=
  (v.ruleId, v.filePath, v.message, v.line)

/-- The CSV update path's key re-read from an existing row. -/
def csvRowKey (r : Row) : String × String × String × String :=
  (r.ruleId, r.filePath, r.message, r.line)

/-- Pure core of `CSVExporter.update_fix_history_csv`: mark existing unfixed
rows whose `(id, path, message, line)` key is absent from the snapshot as
fixed, then append a row for every snapshot violation whose key matches no
existing row.  (The preceding `_update_line_numbers_for_previous_violations`
call shells out to git and rewrites the CSV in place; it is the separate
remap step and is a no-op for a commit whose diff yields no line mappings.) -/
def update_fix_history_rows (rows : List Row) (cur : List Violation)
    (currentCommit : String) : List Row :=
  let curSet := cur.map csvKeyOf
  let updated := rows.map
    (fun r =>
      if csvRowKey r ∉ curSet ∧ r.fixed = false then
        { r with fixCommit := currentCommit, fixed := true }
      else r)
  updated ++
    (cur.filter
      (fun v => ¬ rows.any (fun r => csvRowKey r = csvKeyOf v))).map
      (fun v => create_violation_row_data v currentCommit false "")

/-! ### Lint output parsing (`Flake8Analyzer.parse_flake8_output`) -/

/-- Python `str.split()` (no argument): whitespace-run split dropping empty
pieces. -/
def pySplitWS (s : List Char) : List (List Char) :=
  (splitPred Char.isWhitespace s).filter (fun t => t ≠ [])

/-- Tail of Python `s.split(' ', 1)` when a space exists: everything after the
first space; `none` when the string has no space (where Python's `[1]` would
raise `IndexError`). -/
def splitOnceSpaceTail : List Char → Option (List Char)
  | [] => none
  | c :: cs => if c = ' ' then some cs else splitOnceSpaceTail cs

/-- Result of one line of the `parse_flake8_output` loop: the line is skipped,
raises an uncaught `IndexError`, or yields a violation tuple. -/
inductive FlakeLineResult where
  | skip : FlakeLineResult
  | err : FlakeLineResult
  | viol : Violation → FlakeLineResult
deriving DecidableEq, Repr

/-- One line of `parse_flake8_output`, with the file read of
`get_violation_context` abstracted as the oracle `ctx : filePath → line →
context` (it reads the checked-out file tree, an external collaborator). -/
def parseFlakeLine (ctx : String → String → String) (line : List Char) :
    FlakeLineResult :=
  if line.any (fun c => ! c.isWhitespace) then
    let parts := splitPred (fun c => c = ':') line
    if 4 ≤ parts.length then
      let fp := String.mk (parts.getD 0 [])
      let ln := String.mk (parts.getD 1 [])
      let p3 := parts.getD 3 []
      match pySplitWS p3 with
      | [] => .err
      | code :: restToks =>
          if restToks = [] then .viol ⟨String.mk code, fp, "", ctx fp ln, ln⟩
          else
            match splitOnceSpaceTail p3 with
            | none => .err
            | some tail => .viol ⟨String.mk code, fp, String.mk tail, ctx fp ln, ln⟩
    else .skip
  else .skip

/-- The `parse_flake8_output` loop: `seen` is the dedup key set
`(error_code, file_path, line_number)`, `acc` the appended violation list;
an uncaught exception yields `none` for the whole call. -/
def parseFlake8Go (ctx : String → String → String) :
    List (List Char) → List VKey → List Violation → Option (List Violation)
  | [], _, acc => some acc
  | l :: ls, seen, acc =>
      match parseFlakeLine ctx l with
      | .err => none
      | .skip => parseFlake8Go ctx ls seen acc
      | .viol v =>
          if keyOf v ∈ seen then parseFlake8Go ctx ls seen acc
          else parseFlake8Go ctx ls (keyOf v :: seen) (acc ++ [v])

/-- `Flake8Analyzer.parse_flake8_output` on the raw flake8 text. -/
def parse_flake8_output (ctx : String → String → String) (output : String) :
    Option (List Violation) :=
  parseFlake8Go ctx (splitPred (fun c => c = '\n') output.toList) [] []

/-- All violations the line parser yields, without the dedup filter, in
output order: the reference stream against which the dedup is specified. -/
def allParsedViolations (ctx : String → String → String) (output : String) :
    List Violation :=
  (splitPred (fun c => c = '\n') output.toList).filterMap
    (fun l =>
      match parseFlakeLine ctx l with
      | .viol v => some v
      | _ => none)

/-- Fuel-indexed first-occurrence filter: keep each violation whose identity
key has not occurred earlier in the list. -/
def firstPerKeyAux : Nat → List Violation → List Violation
  | 0, _ => []
  | _, [] => []
  | fuel + 1, v :: vs =>
      v :: firstPerKeyAux fuel (vs.filter (fun w => keyOf w ≠ keyOf v))

/-- First occurrence per identity key, preserving order: the specification of
the dedup performed by `parse_flake8_output`. -/
def firstPerKey (l : List Violation) : List Violation :=
  firstPerKeyAux l.length l

/-! ### Specification-side shapes for the hunk header grammar -/

/-- Optional `,count` part of the hunk header pattern. -/
def optComma : Option (List Char) → List Char
  | none => []
  | some ds => ',' :: ds

/-- The literal character shape `@@ -as[,bs] +cs[,ds] @@rest` of the hunk
header grammar given in the specification. -/
def hunkShape (as : List Char) (bs : Option (List Char)) (cs : List Char)
    (ds : Option (List Char)) (rest : List Char) : List Char :=
  ['@', '@', ' ', '-'] ++ as ++ optComma bs ++ [' ', '+'] ++ cs ++
    optComma ds ++ [' ', '@', '@'] ++ rest

/-- A nonempty all-digit character group, the `(\d+)` of the grammar. -/
def isDigitStr (l : List Char) : Prop := l ≠ [] ∧ ∀ c ∈ l, c.isDigit = true

/-- Digit-group condition for an optional count group. -/
def optDigitStr : Option (List Char) → Prop
  | none => True
  | some l => isDigitStr l

/-- Value of an optional count group, defaulting to 1 when missing. -/
def optVal : Option (List Char) → Nat
  | none => 1
  | some l => digitsToNat l

/-- Number of list elements `≤ x`, used to state the line-map
characterization (insertions at or before a new position, deletions at or
before an old position). -/
def countLe (x : Int) (l : List Nat) : Nat :=
  (l.filter (fun (a : Nat) => decide ((a : Int) ≤ x))).length

/-! ### Concrete fixtures for the scenario claims -/

/-- Number of open (unfixed) rows in a ledger row list. -/
def countOpen (rows : List Row) : Nat :=
  (rows.filter (fun r => r.fixed = false)).length

/-- Scenario A initial violation: rule E1 in `f.py` at line 10. -/
def violA10 : Violation := ⟨"E1", "f.py", "m", "ctx", "10"⟩

/-- Scenario A shifted violation: the same violation reported at line 13. -/
def violA13 : Violation := ⟨"E1", "f.py", "m", "ctx", "13"⟩

/-- Scenario A diff: three lines inserted before line 5 of `f.py`. -/
def diffInsertBefore5 : String :=
  "diff --git a/f.py b/f.py\n--- a/f.py\n+++ b/f.py\n@@ -5,0 +5,3 @@\n+a\n+b\n+c\n"

/-- Scenario A commit sequence. -/
def commitsScenarioA : List CommitData :=
  [⟨"c0", "", [violA10]⟩, ⟨"c1", diffInsertBefore5, [violA13]⟩]

/-- Reappearance scenario violation: rule E2 in `g.py` at line 5. -/
def violB5 : Violation := ⟨"E2", "g.py", "m", "ctx", "5"⟩

/-- Reappearance scenario: seen at `c0`, gone at `c1`, back at the same line
at `c2`. -/
def commitsReappear : List CommitData :=
  [⟨"c0", "", [violB5]⟩, ⟨"c1", "", []⟩, ⟨"c2", "", [violB5]⟩]

/-- Collision scenario: same rule in the same file at line 9. -/
def viol9 : Violation := ⟨"E1", "f.py", "m", "ctx", "9"⟩

/-- Collision scenario: same rule in the same file at line 10. -/
def viol10 : Violation := ⟨"E1", "f.py", "m2", "ctx2", "10"⟩

/-- Collision scenario diff: line 10 of `f.py` deleted. -/
def diffDelete10 : String :=
  "diff --git a/f.py b/f.py\n--- a/f.py\n+++ b/f.py\n@@ -10,1 +10,0 @@\n-q\n"

/-- Collision scenario seeded ledger: open entries at lines 9 and 10. -/
def collisionLedger : Ledger := initLedger [viol9, viol10] "c0"

/-- Collision scenario commit: the deletion diff, snapshot still reporting
the violation at line 9. -/
def collisionCommit : CommitData := ⟨"c1", diffDelete10, [viol9]⟩

/-- Collision scenario ledger after one advance. -/
def collisionAfter : Ledger := advanceStep collisionLedger collisionCommit

/-- Message-variant row for the CSV path: message `m1` at line 5. -/
def rowM1 : Row := create_violation_row_data ⟨"E1", "f.py", "m1", "ctx", "5"⟩ "c0" false ""

/-! ### Scenario theorems -/

/-- Claim C1 (counterexample): in Scenario A — one Open entry at line 10,
diff hunk `@@ -5,0 +5,3 @@`, raw snapshot holding the violation at the
shifted line 13 — the entry's trackedLine after `advance` is "10", not "13":
the inserted lines end the computed map at line 7, so line 10 falls in the
mapping gap and is kept unchanged. -/
theorem scenarioA_line_stays_10 :
    ((process_violations_batch_optimized [violA10] commitsScenarioA).get? 0).map
        Row.line = some "10" ∧
    ¬ (((process_violations_batch_optimized [violA10] commitsScenarioA).get? 0).map
        Row.line = some "13") := by
  decide

/-- Claim C1 (amended): in Scenario A the computed line map of
`@@ -5,0 +5,3 @@` has no key 10, the pre-existing entry keeps trackedLine 10
and is marked Fixed at that commit, and a brand-new Open entry with
trackedLine 13 is created for the shifted raw violation. -/
theorem scenarioA_gap_splits_entry :
    (alookup (calculate_line_mapping diffInsertBefore5) "f.py").map
        (fun lm => alookup lm 10) = some none ∧
    (process_violations_batch_optimized [violA10] commitsScenarioA).map
        (fun r => (r.ruleId, r.filePath, r.line, r.errorCommit, r.fixCommit, r.fixed))
      = [("E1", "f.py", "10", "c0", "c1", true),
         ("E1", "f.py", "13", "c1", "", false)] := by
  decide

/-- Claim C2 (counterexample): for the single-hunk list `@@ -10,1 +10,0 @@`
the deleted old line 10 is mapped to the concrete new line 9, not to absent;
the untouched old line 11 is instead absent from the computed map entirely. -/
theorem deleted_line_maps_concretely :
    10 ∈ (process_hunks ["@@ -10,1 +10,0 @@".toList]).deleted ∧
    alookup (calculate_file_line_mapping (process_hunks ["@@ -10,1 +10,0 @@".toList]))
        10 = some (some 9) ∧
    alookup (calculate_file_line_mapping (process_hunks ["@@ -10,1 +10,0 @@".toList]))
        11 = none := by
  decide

/-- Claim C3 (counterexample): in the CSV update path the match key includes
the message: against an existing open row with message `m1` at
`(E1, f.py, line 5)`, a snapshot violation identical except for message `m2`
does not match (the row is marked fixed and a new row is appended), whereas
the same snapshot with message `m1` matches and leaves the row unchanged. -/
theorem csv_match_depends_on_message :
    (update_fix_history_rows [rowM1] [⟨"E1", "f.py", "m2", "ctx", "5"⟩] "c1").map
        (fun r => (r.message, r.fixCommit, r.fixed))
      = [("m1", "c1", true), ("m2", "", false)] ∧
    (update_fix_history_rows [rowM1] [⟨"E1", "f.py", "m1", "ctx", "5"⟩] "c1").map
        (fun r => (r.message, r.fixCommit, r.fixed))
      = [("m1", "", false)] := by
  decide

/-- Claim C5 (counterexample): a violation fixed at `c1` that reappears at
`c2` with the same `(ruleId, filePath, line)` key creates no brand-new Open
entry: the final ledger holds exactly the one Fixed row and no Open row. -/
theorem reappearance_at_same_line_creates_no_entry :
    (process_violations_batch_optimized [violB5] commitsReappear).map
        (fun r => (r.ruleId, r.filePath, r.line, r.errorCommit, r.fixCommit, r.fixed))
      = [("E2", "g.py", "5", "c0", "c1", true)] ∧
    countOpen (process_violations_batch_optimized [violB5] commitsReappear) = 0 := by
  decide

/-- Claim C6 (counterexample): after the advance over the deletion of line 10
(which remaps the line-10 entry onto the already-occupied key
`(E1, f.py, 9)`), the ledger holds two Open entries while the commit's raw
snapshot holds one violation. -/
theorem conservation_fails_after_collision :
    countOpen collisionAfter.rows = 2 ∧ collisionCommit.violations.length = 1 := by
  decide

/-- Claim C7 (counterexample): immediately after the remap step of that same
advance, two distinct Open rows share the identity key `(E1, f.py, 9)` —
the dict rebuild kept only one tracker entry, but the rows both moved to
line 9. -/
theorem open_rows_share_key_after_remap :
    ((update_violation_line_numbers_batch (calculate_line_mapping diffDelete10)
        collisionLedger.rows collisionLedger.tracker).1.map
      (fun r => (rowKey r, r.fixed)))
      = [(("E1", "f.py", "9"), false), (("E1", "f.py", "9"), false)] := by
  decide

/-! ### Dictionary lemmas -/

/-- Key membership agrees with a successful lookup. -/
theorem mem_dictKeys_iff_isSome {α β : Type} [DecidableEq α]
    (l : List (α × β)) (k : α) : k ∈ dictKeys l ↔ (alookup l k).isSome := by
  induction l with
  | nil => simp [dictKeys, alookup]
  | cons e rest ih =>
      obtain ⟨k', v'⟩ := e
      by_cases h : k' = k
      · subst h
        simp [dictKeys, alookup]
      · simp [dictKeys, alookup, h, Ne.symm h, ih]

/-- Keys after a dict write: the old keys plus the written key. -/
theorem mem_dictKeys_dictInsert {α β : Type} [DecidableEq α]
    (l : List (α × β)) (k : α) (v : β) (k' : α) :
    k' ∈ dictKeys (dictInsert l k v) ↔ k' ∈ dictKeys l ∨ k' = k := by
  induction l with
  | nil => simp [dictKeys, dictInsert, eq_comm]
  | cons e rest ih =>
      obtain ⟨k0, v0⟩ := e
      by_cases h : k0 = k
      · subst h
        simp [dictKeys, dictInsert]
        tauto
      · simp [dictKeys, dictInsert, h, ih]
        tauto

/-- The written key is a key afterwards. -/
theorem self_mem_dictKeys_dictInsert {α β : Type} [DecidableEq α]
    (l : List (α × β)) (k : α) (v : β) : k ∈ dictKeys (dictInsert l k v) := by
  rw [mem_dictKeys_dictInsert]
  exact Or.inr rfl

/-- A dict write preserves duplicate-freeness of the key list. -/
theorem dictInsert_keys_nodup {α β : Type} [DecidableEq α]
    (l : List (α × β)) (k : α) (v : β) (h : (dictKeys l).Nodup) :
    (dictKeys (dictInsert l k v)).Nodup := by
  induction l with
  | nil => simp [dictKeys, dictInsert]
  | cons e rest ih =>
      obtain ⟨k0, v0⟩ := e
      simp only [dictKeys, List.nodup_cons] at h
      by_cases hk : k0 = k
      · subst hk
        simpa [dictKeys, dictInsert, List.nodup_cons] using h
      · have := ih h.2
        simp only [dictKeys, dictInsert, hk, if_false, List.nodup_cons]
        refine ⟨?_, this⟩
        rw [mem_dictKeys_dictInsert]
        rintro (hm | hm)
        · exact h.1 hm
        · exact hk hm

/-! ### Structure of one remap-entry step -/

/-- Shape of `remapEntry`'s result: the row list is either untouched or one
still-open row is overwritten in place (its `fixed` flag staying `false`),
and the new tracker is the old one with exactly one key written at the
entry's row index. -/
theorem remapEntry_spec (lms : List (String × LineMapT)) (acc : List Row × Tracker)
    (e : VKey × Nat) :
    (remapEntry lms acc e).1.length = acc.1.length ∧
    (∃ k', (remapEntry lms acc e).2 = dictInsert acc.2 k' e.2) ∧
    ((remapEntry lms acc e).1 = acc.1 ∨
      ((acc.1.getD e.2 default).fixed = false ∧
        ∃ s, (remapEntry lms acc e).1 = acc.1.set e.2 s ∧ s.fixed = false)) := by
  rw [remapEntry]
  split
  case isTrue hf =>
    split
    case h_1 fmap heq hdig =>
      split
      case h_1 newLine heq2 =>
        split
        case isTrue hne =>
          refine ⟨List.length_set _ _ _, ⟨_, rfl⟩, Or.inr ⟨hf, ⟨_, rfl, ?_⟩⟩⟩
          simpa using hf
        case isFalse hne => exact ⟨rfl, ⟨_, rfl⟩, Or.inl rfl⟩
      case h_2 heq2 => exact ⟨rfl, ⟨_, rfl⟩, Or.inl rfl⟩
      case h_3 heq2 => exact ⟨rfl, ⟨_, rfl⟩, Or.inl rfl⟩
    case h_2 => exact ⟨rfl, ⟨_, rfl⟩, Or.inl rfl⟩
  case isFalse hf => exact ⟨rfl, ⟨_, rfl⟩, Or.inl rfl⟩

/-- A row that is already fixed is left untouched by one remap-entry step. -/
theorem remapEntry_fixed_preserved (lms : List (String × LineMapT))
    (acc : List Row × Tracker) (e : VKey × Nat) (i : Nat) (r : Row)
    (h1 : acc.1.get? i = some r) (h2 : r.fixed = true) :
    (remapEntry lms acc e).1.get? i = some r := by
  obtain ⟨-, -, hrows⟩ := remapEntry_spec lms acc e
  rcases hrows with hsame | ⟨hopen, s, hset, -⟩
  · rw [hsame, h1]
  · by_cases hi : e.2 = i
    · subst hi
      have : acc.1.getD e.2 default = r := by
        simp [List.getD, ← List.get?_eq_getElem?, h1]
      rw [this, h2] at hopen
      simp at hopen
    · rw [hset, List.get?_set_ne _ _ hi, h1]

/-- The remap fold never touches a row that is already fixed. -/
theorem remapFold_fixed_preserved (lms : List (String × LineMapT)) :
    ∀ (tr : Tracker) (acc : List Row × Tracker) (i : Nat) (r : Row),
      acc.1.get? i = some r → r.fixed = true →
      (tr.foldl (remapEntry lms) acc).1.get? i = some r := by
  intro tr
  induction tr with
  | nil => intro acc i r h1 _; simpa using h1
  | cons e rest ih =>
      intro acc i r h1 h2
      exact ih _ i r (remapEntry_fixed_preserved lms acc e i r h1 h2) h2

/-- The remap fold preserves the number of rows. -/
theorem remapFold_length (lms : List (String × LineMapT)) :
    ∀ (tr : Tracker) (acc : List Row × Tracker),
      (tr.foldl (remapEntry lms) acc).1.length = acc.1.length := by
  intro tr
  induction tr with
  | nil => intro acc; rfl
  | cons e rest ih =>
      intro acc
      rw [List.foldl_cons, ih]
      exact (remapEntry_spec lms acc e).1

/-- The remap fold preserves duplicate-freeness of the tracker keys it is
accumulating. -/
theorem remapFold_nodup (lms : List (String × LineMapT)) :
    ∀ (tr : Tracker) (acc : List Row × Tracker),
      (dictKeys acc.2).Nodup →
      (dictKeys (tr.foldl (remapEntry lms) acc).2).Nodup := by
  intro tr
  induction tr with
  | nil => intro acc h; simpa using h
  | cons e rest ih =>
      intro acc h
      refine ih _ ?_
      obtain ⟨-, ⟨k', hk'⟩, -⟩ := remapEntry_spec lms acc e
      rw [hk']
      exact dictInsert_keys_nodup _ _ _ h

/-- The whole remap step (`_update_violation_line_numbers_batch`) never
touches a row that is already fixed. -/
theorem update_batch_fixed_preserved (lms : List (String × LineMapT))
    (rows : List Row) (tracker : Tracker) (i : Nat) (r : Row)
    (h1 : rows.get? i = some r) (h2 : r.fixed = true) :
    (update_violation_line_numbers_batch lms rows tracker).1.get? i = some r := by
  rw [update_violation_line_numbers_batch]
  split
  · simpa using h1
  · exact remapFold_fixed_preserved lms tracker (rows, []) i r h1 h2

/-- The whole remap step preserves the number of rows. -/
theorem update_batch_length (lms : List (String × LineMapT))
    (rows : List Row) (tracker : Tracker) :
    (update_violation_line_numbers_batch lms rows tracker).1.length = rows.length := by
  rw [update_violation_line_numbers_batch]
  split
  · rfl
  · exact remapFold_length lms tracker (rows, [])

/-! ### Fixed-marking lemmas -/

/-- One fixed-marking step never touches a row that is already fixed. -/
theorem fixEntry_fixed_preserved (ck : List VKey) (c : String) (rows : List Row)
    (e : VKey × Nat) (i : Nat) (r : Row) (h1 : rows.get? i = some r)
    (h2 : r.fixed = true) : (fixEntry ck c rows e).get? i = some r := by
  rw [fixEntry]
  split
  · exact h1
  · split
    case isTrue hopen =>
      by_cases hi : e.2 = i
      · subst hi
        have : rows.getD e.2 default = r := by
          simp [List.getD, ← List.get?_eq_getElem?, h1]
        rw [this, h2] at hopen
        simp at hopen
      · rw [List.get?_set_ne _ _ hi, h1]
    case isFalse => exact h1

/-- One fixed-marking step preserves the number of rows. -/
theorem fixEntry_length (ck : List VKey) (c : String) (rows : List Row)
    (e : VKey × Nat) : (fixEntry ck c rows e).length = rows.length := by
  rw [fixEntry]
  split
  · rfl
  · split
    · exact List.length_set _ _ _
    · rfl

/-- The fixed-marking fold never touches a row that is already fixed. -/
theorem markFixed_fixed_preserved (ck : List VKey) (c : String) :
    ∀ (tr : Tracker) (rows : List Row) (i : Nat) (r : Row),
      rows.get? i = some r → r.fixed = true →
      (markFixed ck c tr rows).get? i = some r := by
  intro tr
  induction tr with
  | nil => intro rows i r h1 _; simpa [markFixed] using h1
  | cons e rest ih =>
      intro rows i r h1 h2
      exact ih _ i r (fixEntry_fixed_preserved ck c rows e i r h1 h2) h2

/-- The fixed-marking fold preserves the number of rows. -/
theorem markFixed_length (ck : List VKey) (c : String) :
    ∀ (tr : Tracker) (rows : List Row),
      (markFixed ck c tr rows).length = rows.length := by
  intro tr
  induction tr with
  | nil => intro rows; rfl
  | cons e rest ih =>
      intro rows
      simp only [markFixed, List.foldl_cons]
      simp only [markFixed] at ih
      rw [ih, fixEntry_length]

/-! ### New-violation marking lemmas -/

/-- Shape of the new-violation fold: it appends a batch of fresh open rows,
each for a key that was not in the tracker when the fold started, and covers
every snapshot violation whose key was not in the tracker. -/
theorem markNew_spec (c : String) :
    ∀ (cur : List Violation) (rows : List Row) (tr : Tracker),
      ∃ ext : List Row,
        (markNew c (rows, tr) cur).1 = rows ++ ext ∧
        (∀ r' ∈ ext, rowKey r' ∉ dictKeys tr) ∧
        (∀ v ∈ cur, keyOf v ∉ dictKeys tr →
          ∃ r' ∈ ext, rowKey r' = keyOf v) := by
  intro cur
  induction cur with
  | nil => intro rows tr; exact ⟨[], by simp [markNew], by simp, by simp⟩
  | cons v rest ih =>
      intro rows tr
      simp only [markNew, List.foldl_cons]
      by_cases hv : (alookup tr (keyOf v)).isSome
      · obtain ⟨ext, h1, h2, h3⟩ := ih rows tr
        rw [markNew] at h1
        refine ⟨ext, by simpa [hv] using h1, h2, ?_⟩
        intro w hw hkw
        rcases List.mem_cons.1 hw with hw | hw
        · subst hw
          exact absurd ((mem_dictKeys_iff_isSome tr (keyOf w)).2 hv) hkw
        · exact h3 w hw hkw
      · obtain ⟨ext, h1, h2, h3⟩ :=
          ih (rows ++ [create_violation_row_data v c false ""])
            (dictInsert tr (keyOf v) rows.length)
        simp only [markNew] at h1
        refine ⟨create_violation_row_data v c false "" :: ext, ?_, ?_, ?_⟩
        · simpa [hv] using h1
        · intro r' hr'
          rcases List.mem_cons.1 hr' with hr' | hr'
          · subst hr'
            intro hmem
            exact hv ((mem_dictKeys_iff_isSome tr _).1 hmem)
          · intro hmem
            exact (h2 r' hr')
              ((mem_dictKeys_dictInsert tr (keyOf v) rows.length (rowKey r')).2
                (Or.inl hmem))
        · intro w hw hkw
          rcases List.mem_cons.1 hw with hw | hw
          · subst hw
            exact ⟨create_violation_row_data w c false "", List.mem_cons_self _ _, rfl⟩
          · by_cases hkv : keyOf w = keyOf v
            · exact ⟨create_violation_row_data v c false "", List.mem_cons_self _ _, hkv.symm⟩
            · have : keyOf w ∉ dictKeys (dictInsert tr (keyOf v) rows.length) := by
                rw [mem_dictKeys_dictInsert]
                rintro (hm | hm)
                · exact hkw hm
                · exact hkv hm
              obtain ⟨r', hr', hkr'⟩ := h3 w hw this
              exact ⟨r', List.mem_cons_of_mem _ hr', hkr'⟩

/-- Keys already in the tracker are still there after the new-violation fold. -/
theorem markNew_keys_mono (c : String) :
    ∀ (cur : List Violation) (rows : List Row) (tr : Tracker) (k : VKey),
      k ∈ dictKeys tr → k ∈ dictKeys (markNew c (rows, tr) cur).2 := by
  intro cur
  induction cur with
  | nil => intro rows tr k h; simpa [markNew] using h
  | cons v rest ih =>
      intro rows tr k h
      simp only [markNew, List.foldl_cons]
      simp only [markNew] at ih
      by_cases hv : (alookup tr (keyOf v)).isSome
      · simpa [hv] using ih rows tr k h
      · simp only [hv, if_false, Bool.false_eq_true]
        exact ih _ _ k
          ((mem_dictKeys_dictInsert tr (keyOf v) rows.length k).2 (Or.inl h))

/-- After the new-violation fold, every snapshot violation's key is a tracker
key. -/
theorem markNew_covers (c : String) :
    ∀ (cur : List Violation) (rows : List Row) (tr : Tracker),
      ∀ v ∈ cur, keyOf v ∈ dictKeys (markNew c (rows, tr) cur).2 := by
  intro cur
  induction cur with
  | nil => intro rows tr v hv; simp at hv
  | cons w rest ih =>
      intro rows tr v hv
      simp only [markNew, List.foldl_cons]
      simp only [markNew] at ih
      by_cases hw : (alookup tr (keyOf w)).isSome
      · rcases List.mem_cons.1 hv with hv | hv
        · subst hv
          have : keyOf v ∈ dictKeys tr := (mem_dictKeys_iff_isSome _ _).2 hw
          simpa [hw] using markNew_keys_mono c rest rows tr (keyOf v) this
        · simpa [hw] using ih rows tr v hv
      · simp only [hw, if_false, Bool.false_eq_true]
        rcases List.mem_cons.1 hv with hv | hv
        · subst hv
          exact markNew_keys_mono c rest _ _ (keyOf v)
            (self_mem_dictKeys_dictInsert tr (keyOf v) rows.length)
        · exact ih _ _ v hv

/-- The new-violation fold preserves duplicate-freeness of the tracker keys. -/
theorem markNew_nodup (c : String) :
    ∀ (cur : List Violation) (rows : List Row) (tr : Tracker),
      (dictKeys tr).Nodup → (dictKeys (markNew c (rows, tr) cur).2).Nodup := by
  intro cur
  induction cur with
  | nil => intro rows tr h; simpa [markNew] using h
  | cons v rest ih =>
      intro rows tr h
      simp only [markNew, List.foldl_cons]
      simp only [markNew] at ih
      by_cases hv : (alookup tr (keyOf v)).isSome
      · simpa [hv] using ih rows tr h
      · simp only [hv, if_false, Bool.false_eq_true]
        exact ih _ _ (dictInsert_keys_nodup _ _ _ h)

/-! ### Advance-step lemmas for the lifecycle claims -/

/-- A successful index read is in bounds. -/
theorem get?_some_lt (l : List Row) (i : Nat) (r : Row) (h : l.get? i = some r) :
    i < l.length := by
  by_contra hc
  push_neg at hc
  rw [List.get?_eq_none.2 hc] at h
  simp at h

/-- One whole advance leaves every already-fixed row untouched. -/
theorem advanceStep_fixed_preserved (st : Ledger) (cd : CommitData) (i : Nat)
    (r : Row) (h1 : st.rows.get? i = some r) (h2 : r.fixed = true) :
    (advanceStep st cd).rows.get? i = some r := by
  simp only [advanceStep]
  have hrem := update_batch_fixed_preserved (calculate_line_mapping cd.diffText)
    st.rows st.tracker i r h1 h2
  have hfix := markFixed_fixed_preserved (cd.violations.map keyOf) cd.commit
    (update_violation_line_numbers_batch (calculate_line_mapping cd.diffText)
      st.rows st.tracker).2
    (update_violation_line_numbers_batch (calculate_line_mapping cd.diffText)
      st.rows st.tracker).1 i r hrem h2
  obtain ⟨ext, hext, -, -⟩ := markNew_spec cd.commit cd.violations
    (markFixed (cd.violations.map keyOf) cd.commit
      (update_violation_line_numbers_batch (calculate_line_mapping cd.diffText)
        st.rows st.tracker).2
      (update_violation_line_numbers_batch (calculate_line_mapping cd.diffText)
        st.rows st.tracker).1)
    (update_violation_line_numbers_batch (calculate_line_mapping cd.diffText)
      st.rows st.tracker).2
  rw [hext, List.get?_append (get?_some_lt _ i r hfix)]
  exact hfix

/-- Claim C4: once a row is Fixed, every subsequent `advance` call leaves the
whole row — in particular its trackedLine and fixCommit — unchanged. -/
theorem fixed_rows_frozen (st : Ledger) (cds : List CommitData) (i : Nat)
    (r : Row) (h1 : st.rows.get? i = some r) (h2 : r.fixed = true) :
    (cds.foldl advanceStep st).rows.get? i = some r := by
  induction cds generalizing st with
  | nil => simpa using h1
  | cons cd rest ih =>
      rw [List.foldl_cons]
      exact ih (advanceStep st cd) (advanceStep_fixed_preserved st cd i r h1 h2)

/-- The ledger reaching commit `c1` of the reappearance scenario: its only
row is already fixed. -/
def ledgerReappearW : Ledger := advanceStep (initLedger [violB5] "c0") ⟨"c1", "", []⟩

/-- The fixed row held by `ledgerReappearW`. -/
def fixedRowW : Row :=
  { ruleId := "E2", category := "Error", filePath := "g.py", message := "m",
    line := "5", context := "ctx", errorCommit := "c0", fixCommit := "c1",
    fixed := true }

/-- Witness for claim C4 at the reappearance scenario: the fixed row survives
two further commits, one of which reports the same violation again. -/
theorem fixed_rows_frozen_witness :
    ledgerReappearW.rows.get? 0 = some fixedRowW ∧ fixedRowW.fixed = true ∧
    (([⟨"c2", "", [violB5]⟩, ⟨"c3", diffDelete10, []⟩] : List CommitData).foldl
        advanceStep ledgerReappearW).rows.get? 0 = some fixedRowW :=
  ⟨by decide, by decide,
    fixed_rows_frozen ledgerReappearW [⟨"c2", "", [violB5]⟩, ⟨"c3", diffDelete10, []⟩]
      0 fixedRowW (by decide) (by decide)⟩

/-! ### Mapping-gap lemmas -/

/-- Tracker keys accumulated so far survive the rest of the remap fold. -/
theorem remapFold_key_mem (lms : List (String × LineMapT)) :
    ∀ (tr : Tracker) (acc : List Row × Tracker) (k : VKey),
      k ∈ dictKeys acc.2 → k ∈ dictKeys (tr.foldl (remapEntry lms) acc).2 := by
  intro tr
  induction tr with
  | nil => intro acc k h; simpa using h
  | cons e rest ih =>
      intro acc k h
      rw [List.foldl_cons]
      refine ih _ k ?_
      obtain ⟨-, ⟨k', hk'⟩, -⟩ := remapEntry_spec lms acc e
      rw [hk', mem_dictKeys_dictInsert]
      exact Or.inl h

/-- Computation of one remap-entry step for an entry whose line falls outside
the file's computed map: the state is passed on with only its own key
re-inserted. -/
theorem remapEntry_gap (lms : List (String × LineMapT)) (k : VKey) (lm : LineMapT)
    (hfile : alookup lms k.2.1 = some lm) (hdig : pyIsDigit k.2.2 = true)
    (hgap : alookup lm (strToNat k.2.2) = none) (acc : List Row × Tracker)
    (i : Nat) (r : Row) (hrow : acc.1.get? i = some r) (hopen : r.fixed = false) :
    remapEntry lms acc (k, i) = (acc.1, dictInsert acc.2 k i) := by
  have hd : acc.1.getD i default = r := by
    simp [List.getD, ← List.get?_eq_getElem?, hrow]
  rw [remapEntry]
  simp only [hd, hopen, if_true, hfile, hdig, hgap]

/-- Throughout the remap fold, a row whose tracker entries all carry the
gap key `k` stays untouched. -/
theorem remapFold_gap_untouched (lms : List (String × LineMapT)) (k : VKey)
    (lm : LineMapT) (hfile : alookup lms k.2.1 = some lm)
    (hdig : pyIsDigit k.2.2 = true) (hgap : alookup lm (strToNat k.2.2) = none)
    (i : Nat) (r : Row) (hopen : r.fixed = false) :
    ∀ (tr : Tracker) (acc : List Row × Tracker),
      (∀ e ∈ tr, e.2 = i → e.1 = k) → acc.1.get? i = some r →
      (tr.foldl (remapEntry lms) acc).1.get? i = some r := by
  intro tr
  induction tr with
  | nil => intro acc _ hrow; simpa using hrow
  | cons e rest ih =>
      intro acc htr hrow
      rw [List.foldl_cons]
      refine ih _ (fun e' he' => htr e' (List.mem_cons_of_mem _ he')) ?_
      by_cases hi : e.2 = i
      · have hk : e.1 = k := htr e (List.mem_cons_self _ _) hi
        have he : e = (k, i) := Prod.ext hk hi
        rw [he, remapEntry_gap lms k lm hfile hdig hgap acc i r hrow hopen]
        exact hrow
      · obtain ⟨-, -, hrows⟩ := remapEntry_spec lms acc e
        rcases hrows with hsame | ⟨-, s, hset, -⟩
        · rw [hsame]; exact hrow
        · rw [hset, List.get?_set_ne _ _ hi]; exact hrow

/-- Main gap lemma over the remap fold: the entry's row survives unchanged
and its key is present in the rebuilt tracker. -/
theorem remapFold_gap_spec (lms : List (String × LineMapT)) (k : VKey)
    (lm : LineMapT) (hfile : alookup lms k.2.1 = some lm)
    (hdig : pyIsDigit k.2.2 = true) (hgap : alookup lm (strToNat k.2.2) = none)
    (i : Nat) (r : Row) (hopen : r.fixed = false) :
    ∀ (tr : Tracker) (acc : List Row × Tracker),
      (k, i) ∈ tr → (∀ e ∈ tr, e.2 = i → e.1 = k) → acc.1.get? i = some r →
      (tr.foldl (remapEntry lms) acc).1.get? i = some r ∧
        k ∈ dictKeys (tr.foldl (remapEntry lms) acc).2 := by
  intro tr
  induction tr with
  | nil => intro acc hmem; simp at hmem
  | cons e rest ih =>
      intro acc hmem htr hrow
      by_cases he : e = (k, i)
      · subst he
        rw [List.foldl_cons, remapEntry_gap lms k lm hfile hdig hgap acc i r hrow hopen]
        constructor
        · exact remapFold_gap_untouched lms k lm hfile hdig hgap i r hopen rest _
            (fun e' he' => htr e' (List.mem_cons_of_mem _ he')) hrow
        · exact remapFold_key_mem lms rest _ k
            (self_mem_dictKeys_dictInsert acc.2 k i)
      · have hmem' : (k, i) ∈ rest := by
          rcases List.mem_cons.1 hmem with h | h
          · exact absurd h.symm he
          · exact h
        have hi : e.2 ≠ i := by
          intro hi
          exact he (Prod.ext (htr e (List.mem_cons_self _ _) hi) hi)
        rw [List.foldl_cons]
        refine ih _ hmem' (fun e' he' => htr e' (List.mem_cons_of_mem _ he')) ?_
        obtain ⟨-, -, hrows⟩ := remapEntry_spec lms acc e
        rcases hrows with hsame | ⟨-, s, hset, -⟩
        · rw [hsame]; exact hrow
        · rw [hset, List.get?_set_ne _ _ hi]; exact hrow

/-- Claim C8: during advance, an Open entry whose file appears in the commit's
line maps but whose current trackedLine is not an explicit key of that file's
LineMap keeps its row (hence its trackedLine and identity key) unchanged, and
its key is still present in the rebuilt tracker: the gap is treated as no
change, never as a deletion. -/
theorem mapping_gap_keeps_entry (lms : List (String × LineMapT))
    (rows : List Row) (tracker : Tracker) (k : VKey) (i : Nat) (r : Row)
    (lm : LineMapT) (hmem : (k, i) ∈ tracker)
    (hidx : ∀ e ∈ tracker, e.2 = i → e.1 = k)
    (hrow : rows.get? i = some r) (hopen : r.fixed = false)
    (hfile : alookup lms k.2.1 = some lm) (hdig : pyIsDigit k.2.2 = true)
    (hgap : alookup lm (strToNat k.2.2) = none) :
    (update_violation_line_numbers_batch lms rows tracker).1.get? i = some r ∧
    k ∈ dictKeys (update_violation_line_numbers_batch lms rows tracker).2 := by
  rw [update_violation_line_numbers_batch]
  split
  case isTrue h =>
      rw [h] at hfile
      simp [alookup] at hfile
  case isFalse h =>
      exact remapFold_gap_spec lms k lm hfile hdig hgap i r hopen tracker
        (rows, []) hmem hidx hrow

/-- Witness row for claim C8: the Scenario A entry at line 10. -/
def rowA10 : Row := create_violation_row_data violA10 "c0" false ""

/-- Witness for claim C8 at Scenario A: line 10 is not a key of the computed
map of `@@ -5,0 +5,3 @@`, and the entry survives the remap unchanged. -/
theorem mapping_gap_keeps_entry_witness :
    (update_violation_line_numbers_batch (calculate_line_mapping diffInsertBefore5)
        [rowA10] [(("E1", "f.py", "10"), 0)]).1.get? 0 = some rowA10 ∧
    ("E1", "f.py", "10") ∈ dictKeys (update_violation_line_numbers_batch
        (calculate_line_mapping diffInsertBefore5) [rowA10]
        [(("E1", "f.py", "10"), 0)]).2 :=
  mapping_gap_keeps_entry (calculate_line_mapping diffInsertBefore5) [rowA10]
    [(("E1", "f.py", "10"), 0)] ("E1", "f.py", "10") 0 rowA10
    (calculate_file_line_mapping (process_hunks ["@@ -5,0 +5,3 @@".toList]))
    (by decide) (by decide) (by decide) (by decide) (by decide) (by decide)
    (by decide)

/-! ### Tracker-key uniqueness and snapshot coverage -/

/-- The remap step preserves duplicate-freeness of the tracker keys. -/
theorem update_batch_nodup (lms : List (String × LineMapT)) (rows : List Row)
    (tracker : Tracker) (hnd : (dictKeys tracker).Nodup) :
    (dictKeys (update_violation_line_numbers_batch lms rows tracker).2).Nodup := by
  rw [update_violation_line_numbers_batch]
  split
  · exact hnd
  · exact remapFold_nodup lms tracker (rows, []) (by simp [dictKeys])

/-- Claim C6 (amended): after an advance the tracker is still a map — its
keys are pairwise distinct, so each identity key has exactly one tracker
entry — and every raw violation of the snapshot has its key in the tracker.
(The number of Open rows, however, need not equal the snapshot size.) -/
theorem advance_tracker_covers_snapshot (st : Ledger) (cd : CommitData)
    (hnd : (dictKeys st.tracker).Nodup) :
    (dictKeys (advanceStep st cd).tracker).Nodup ∧
    ∀ v ∈ cd.violations, keyOf v ∈ dictKeys (advanceStep st cd).tracker := by
  simp only [advanceStep]
  constructor
  · exact markNew_nodup cd.commit cd.violations _ _
      (update_batch_nodup (calculate_line_mapping cd.diffText) st.rows
        st.tracker hnd)
  · intro v hv
    exact markNew_covers cd.commit cd.violations _ _ v hv

/-- Witness for claim C6 (amended) at the collision scenario: the collision
commit's snapshot key is covered and the tracker keys stay duplicate-free. -/
theorem advance_tracker_covers_snapshot_witness :
    (dictKeys collisionLedger.tracker).Nodup ∧
    (dictKeys (advanceStep collisionLedger collisionCommit).tracker).Nodup ∧
    keyOf viol9 ∈ dictKeys (advanceStep collisionLedger collisionCommit).tracker :=
  ⟨by decide,
    (advance_tracker_covers_snapshot collisionLedger collisionCommit (by decide)).1,
    (advance_tracker_covers_snapshot collisionLedger collisionCommit (by decide)).2
      viol9 (by decide)⟩

/-- Claim C7 (amended): the tracker dict never holds two entries with the
same identity key — its key list is duplicate-free immediately after the
remap step and after the whole advance — although two Open rows can share a
key after a remap collision. -/
theorem tracker_keys_unique (st : Ledger) (cd : CommitData)
    (hnd : (dictKeys st.tracker).Nodup) :
    (dictKeys (update_violation_line_numbers_batch
        (calculate_line_mapping cd.diffText) st.rows st.tracker).2).Nodup ∧
    (dictKeys (advanceStep st cd).tracker).Nodup := by
  refine ⟨update_batch_nodup (calculate_line_mapping cd.diffText) st.rows
    st.tracker hnd, ?_⟩
  simp only [advanceStep]
  exact markNew_nodup cd.commit cd.violations _ _
    (update_batch_nodup (calculate_line_mapping cd.diffText) st.rows
      st.tracker hnd)

/-- Witness for claim C7 (amended) at the collision scenario. -/
theorem tracker_keys_unique_witness :
    (dictKeys collisionLedger.tracker).Nodup ∧
    (dictKeys (update_violation_line_numbers_batch
        (calculate_line_mapping collisionCommit.diffText) collisionLedger.rows
        collisionLedger.tracker).2).Nodup ∧
    (dictKeys (advanceStep collisionLedger collisionCommit).tracker).Nodup :=
  ⟨by decide,
    (tracker_keys_unique collisionLedger collisionCommit (by decide)).1,
    (tracker_keys_unique collisionLedger collisionCommit (by decide)).2⟩

/-! ### Terminality and creation of new entries -/

/-- Claim C5 (amended): once Fixed, a row is never reopened or modified by an
advance; the rows an advance appends are exactly for keys that were absent
from the remapped tracker — so a raw violation whose key is not tracked (in
particular one reappearing at a different line) gets a brand-new Open entry,
while one whose key coincides with a tracker key (as with the frozen key of a
Fixed entry) creates nothing. -/
theorem fixed_terminal_new_only_untracked (st : Ledger) (cd : CommitData) :
    (∀ i r, st.rows.get? i = some r → r.fixed = true →
      (advanceStep st cd).rows.get? i = some r) ∧
    (∀ r' ∈ (advanceStep st cd).rows.drop st.rows.length,
      rowKey r' ∉ dictKeys (update_violation_line_numbers_batch
        (calculate_line_mapping cd.diffText) st.rows st.tracker).2) ∧
    (∀ v ∈ cd.violations,
      keyOf v ∉ dictKeys (update_violation_line_numbers_batch
        (calculate_line_mapping cd.diffText) st.rows st.tracker).2 →
      ∃ r' ∈ (advanceStep st cd).rows.drop st.rows.length,
        rowKey r' = keyOf v) := by
  obtain ⟨ext, hext, hfresh, hcover⟩ := markNew_spec cd.commit cd.violations
    (markFixed (cd.violations.map keyOf) cd.commit
      (update_violation_line_numbers_batch (calculate_line_mapping cd.diffText)
        st.rows st.tracker).2
      (update_violation_line_numbers_batch (calculate_line_mapping cd.diffText)
        st.rows st.tracker).1)
    (update_violation_line_numbers_batch (calculate_line_mapping cd.diffText)
      st.rows st.tracker).2
  have hlen : (markFixed (cd.violations.map keyOf) cd.commit
      (update_violation_line_numbers_batch (calculate_line_mapping cd.diffText)
        st.rows st.tracker).2
      (update_violation_line_numbers_batch (calculate_line_mapping cd.diffText)
        st.rows st.tracker).1).length = st.rows.length := by
    rw [markFixed_length, update_batch_length]
  have hdrop : (advanceStep st cd).rows.drop st.rows.length = ext := by
    show (markNew cd.commit _ cd.violations).1.drop st.rows.length = ext
    rw [hext, ← hlen, List.drop_left]
  refine ⟨fun i r h1 h2 => advanceStep_fixed_preserved st cd i r h1 h2, ?_, ?_⟩
  · intro r' hr'
    rw [hdrop] at hr'
    exact hfresh r' hr'
  · intro v hv hk
    obtain ⟨r', hr', hkr'⟩ := hcover v hv hk
    exact ⟨r', by rw [hdrop]; exact hr', hkr'⟩

/-- Witness for claim C5 (amended) at the reappearance scenario: the fixed
row survives the commit `c2` advance, and no row is appended for the
reappearing violation because its key is still tracked. -/
theorem fixed_terminal_new_only_untracked_witness :
    (advanceStep ledgerReappearW ⟨"c2", "", [violB5]⟩).rows.get? 0
        = some fixedRowW ∧
    (advanceStep ledgerReappearW ⟨"c2", "", [violB5]⟩).rows.drop 1 = [] :=
  ⟨(fixed_terminal_new_only_untracked ledgerReappearW ⟨"c2", "", [violB5]⟩).1
      0 fixedRowW (by decide) (by decide),
    by decide⟩

/-! ### The batch matcher ignores message and context -/

/-- Agreement of two raw violations on the batch identity key
`(ruleId, filePath, line)`: the message and context may differ. -/
def sameKey (v w : Violation) : Prop :=
  v.ruleId = w.ruleId ∧ v.filePath = w.filePath ∧ v.line = w.line

/-- Every row column except the message and the context. -/
def rowView (r : Row) :
    String × String × String × String × String × String × Bool :=
  (r.ruleId, r.category, r.filePath, r.line, r.errorCommit, r.fixCommit, r.fixed)

/-- Key-equal violations have equal batch identity keys. -/
theorem keyOf_eq_of_sameKey (v w : Violation) (h : sameKey v w) :
    keyOf v = keyOf w := by
  obtain ⟨h1, h2, h3⟩ := h
  simp [keyOf, h1, h2, h3]

/-- Pointwise key-equal snapshots have equal key lists. -/
theorem map_keyOf_eq {cur1 cur2 : List Violation}
    (h : List.Forall₂ sameKey cur1 cur2) : cur1.map keyOf = cur2.map keyOf := by
  induction h with
  | nil => rfl
  | cons hvw _ ih => simp [keyOf_eq_of_sameKey _ _ hvw, ih]

/-- The new-violation fold treats pointwise key-equal snapshots identically
up to the message and context columns of the appended rows. -/
theorem markNew_congr (c : String) {cur1 cur2 : List Violation}
    (h : List.Forall₂ sameKey cur1 cur2) :
    ∀ (tr : Tracker) (rows1 rows2 : List Row),
      rows1.map rowView = rows2.map rowView →
      (markNew c (rows1, tr) cur1).2 = (markNew c (rows2, tr) cur2).2 ∧
      (markNew c (rows1, tr) cur1).1.map rowView
        = (markNew c (rows2, tr) cur2).1.map rowView := by
  induction h with
  | nil => intro tr rows1 rows2 hr; exact ⟨rfl, hr⟩
  | @cons v w cur1t cur2t hvw hrest ih =>
      intro tr rows1 rows2 hr
      have hlen : rows1.length = rows2.length := by
        have := congrArg List.length hr
        simpa using this
      have hk := keyOf_eq_of_sameKey _ _ hvw
      simp only [markNew, List.foldl_cons]
      simp only [markNew] at ih
      rw [hk, hlen]
      by_cases hg : (alookup tr (keyOf w)).isSome
      · simp only [hg, if_true]
        exact ih tr rows1 rows2 hr
      · simp only [hg, if_false, Bool.false_eq_true]
        refine ih _ _ _ ?_
        simp only [List.map_append, hr]
        obtain ⟨h1, h2, h3⟩ := hvw
        simp [rowView, create_violation_row_data, get_violation_category, h1, h2, h3]

/-- Claim C3 (amended): in the optimized batch path, whether a raw violation
matches an existing entry — and the entire resulting tracker and all row
columns other than message and context — depends only on the snapshot's
`(ruleId, filePath, line)` keys; messages and contexts never influence the
match.  (The CSV update path, by contrast, includes the message in its key.) -/
theorem batch_match_ignores_message (st : Ledger) (commit diffText : String)
    (cur1 cur2 : List Violation) (h : List.Forall₂ sameKey cur1 cur2) :
    (advanceStep st ⟨commit, diffText, cur1⟩).tracker
      = (advanceStep st ⟨commit, diffText, cur2⟩).tracker ∧
    (advanceStep st ⟨commit, diffText, cur1⟩).rows.map rowView
      = (advanceStep st ⟨commit, diffText, cur2⟩).rows.map rowView := by
  simp only [advanceStep]
  rw [map_keyOf_eq h]
  exact markNew_congr commit h _ _ _ rfl

/-- Witness for claim C3 (amended): two snapshots differing only in the
message of their single violation produce the same tracker and the same
rows up to message and context. -/
theorem batch_match_ignores_message_witness :
    (advanceStep (initLedger [violA10] "c0")
        ⟨"c1", "", [⟨"E1", "f.py", "mX", "ctx", "10"⟩]⟩).tracker
      = (advanceStep (initLedger [violA10] "c0")
        ⟨"c1", "", [⟨"E1", "f.py", "mY", "ctxY", "10"⟩]⟩).tracker ∧
    (advanceStep (initLedger [violA10] "c0")
        ⟨"c1", "", [⟨"E1", "f.py", "mX", "ctx", "10"⟩]⟩).rows.map rowView
      = (advanceStep (initLedger [violA10] "c0")
        ⟨"c1", "", [⟨"E1", "f.py", "mY", "ctxY", "10"⟩]⟩).rows.map rowView :=
  batch_match_ignores_message (initLedger [violA10] "c0") "c1" ""
    [⟨"E1", "f.py", "mX", "ctx", "10"⟩] [⟨"E1", "f.py", "mY", "ctxY", "10"⟩]
    (List.Forall₂.cons (by exact ⟨rfl, rfl, rfl⟩) List.Forall₂.nil)

/-! ### Line-walk lemmas for the remapper characterization -/

/-- The deletion scan passes over a list whose entries all exceed the current
line without changing anything. -/
theorem dropDel_gt (n : Nat) (off : Int) :
    ∀ del : List Nat, (∀ d ∈ del, n < d) → dropDel n del off = (off, del) := by
  intro del h
  cases del with
  | nil => rfl
  | cons d ds =>
      have := h d (List.mem_cons_self _ _)
      rw [dropDel]
      simp [Nat.not_le.2 this]

/-- The deletion scan consumes exactly a leading entry equal to the current
line, decrementing the offset. -/
theorem dropDel_cons_eq (n : Nat) (off : Int) (ds : List Nat)
    (h : ∀ d ∈ ds, n < d) : dropDel n (n :: ds) off = (off - 1, ds) := by
  rw [dropDel]
  simp only [le_refl, if_true, if_pos rfl]
  exact dropDel_gt n (off - 1) ds h

/-- The insertion scan consumes the greedy prefix of entries at or below the
running position: the consumed entries end up strictly below the final
position and the remaining ones strictly above it. -/
theorem dropAdd_spec (n : Nat) :
    ∀ (add : List Nat) (off : Int), add.Sorted (· ≤ ·) →
      ∃ con rest, add = con ++ rest ∧
        dropAdd n add off = (off + con.length, rest) ∧
        (∀ a ∈ con, (a : Int) < (n : Int) + (off + con.length)) ∧
        (∀ a ∈ rest, (n : Int) + (off + con.length) < (a : Int)) := by
  intro add
  induction add with
  | nil =>
      intro off _
      exact ⟨[], [], rfl, by simp [dropAdd], by simp, by simp⟩
  | cons a rest0 ih =>
      intro off hsort
      have ha : ∀ b ∈ rest0, a ≤ b := List.rel_of_sorted_cons hsort
      have hsort' : rest0.Sorted (· ≤ ·) := hsort.of_cons
      by_cases hle : (a : Int) ≤ (n : Int) + off
      · obtain ⟨con, rest, heq, hres, hcon, hrest⟩ := ih (off + 1) hsort'
        refine ⟨a :: con, rest, by simp [heq], ?_, ?_, ?_⟩
        · rw [dropAdd]
          simp only [hle, if_true, hres, List.length_cons]
          congr 1
          push_cast
          ring
        · intro b hb
          simp only [List.length_cons]
          rcases List.mem_cons.1 hb with hb | hb
          · subst hb
            push_cast
            omega
          · have := hcon b hb
            push_cast at this ⊢
            omega
        · intro b hb
          simp only [List.length_cons]
          have := hrest b hb
          push_cast at this ⊢
          omega
      · refine ⟨[], a :: rest0, rfl, ?_, by simp, ?_⟩
        · rw [dropAdd]
          simp [hle]
        · intro b hb
          rcases List.mem_cons.1 hb with hb | hb
          · subst hb
            simpa using lt_of_not_le hle
          · have h1 := lt_of_not_le hle
            have h2 := ha b hb
            simp only [List.length_nil]
            push_cast
            omega

/-- Count of entries at or below a bound splits over append. -/
theorem countLe_append (x : Int) (l1 l2 : List Nat) :
    countLe x (l1 ++ l2) = countLe x l1 + countLe x l2 := by
  simp [countLe, List.filter_append]

/-- All entries at or below the bound are counted. -/
theorem countLe_of_all_le (x : Int) (l : List Nat)
    (h : ∀ a ∈ l, (a : Int) ≤ x) : countLe x l = l.length := by
  unfold countLe
  rw [List.filter_eq_self.2 (fun a ha => by simpa using h a ha)]

/-- No entry above the bound is counted. -/
theorem countLe_of_all_gt (x : Int) (l : List Nat)
    (h : ∀ a ∈ l, x < (a : Int)) : countLe x l = 0 := by
  unfold countLe
  rw [List.length_eq_zero]
  rw [List.filter_eq_nil]
  intro a ha
  simpa using not_le.2 (h a ha)

/-- The count only depends on the multiset of entries. -/
theorem countLe_perm (x : Int) {l1 l2 : List Nat} (h : l1.Perm l2) :
    countLe x l1 = countLe x l2 := by
  unfold countLe
  exact (h.filter _).length_eq

/-- Invariant-carrying walk lemma for `calcAux`: with the deleted and added
lists split into a processed part and a pending part satisfying the loop
invariants, every untouched line `m` scanned by the remaining iterations is
mapped to a concrete position `p` determined by the insertions at or before
`p` and the deletions at or before `m`, and `p` is not an inserted position. -/
theorem calcAux_spec (D A : List Nat) (hD : List.Sorted (· < ·) D)
    (hA : List.Sorted (· ≤ ·) A) :
    ∀ (k n : Nat) (del add dPre aPre : List Nat) (off : Int),
      D = dPre ++ del → A = aPre ++ add →
      1 ≤ n →
      (∀ d ∈ dPre, d < n) → (∀ d ∈ del, n ≤ d) →
      (∀ a ∈ aPre, (a : Int) ≤ (n : Int) - 1 + off) →
      (∀ a ∈ add, (n : Int) - 1 + off < (a : Int)) →
      off = (aPre.length : Int) - (dPre.length : Int) →
      ∀ m, n ≤ m → m < n + k → m ∉ D →
        ∃ p : Int,
          alookup (calcAux n k del add off) m = some (some p) ∧
          p = (m : Int) + (countLe p A : Int) - (countLe (m : Int) D : Int) ∧
          ∀ a ∈ A, (a : Int) ≠ p := by
  intro k
  induction k with
  | zero =>
      intro n del add dPre aPre off _ _ _ _ _ _ _ _ m hm1 hm2 _
      omega
  | succ k ih =>
      intro n del add dPre aPre off hDeq hAeq hn hdPre hdel haPre hadd hoff m
        hm1 hm2 hmD
      obtain ⟨off1, del1, dPre1, hdd, hDeq1, hdPre1, hdel1, hoff1, hrange,
          hsame⟩ :
          ∃ off1 del1 dPre1,
            dropDel n del off = (off1, del1) ∧ D = dPre1 ++ del1 ∧
            (∀ d ∈ dPre1, d < n + 1) ∧ (∀ d ∈ del1, n + 1 ≤ d) ∧
            off1 = (aPre.length : Int) - (dPre1.length : Int) ∧
            (off - 1 ≤ off1 ∧ off1 ≤ off) ∧
            (n ∉ D → off1 = off ∧ del1 = del ∧ dPre1 = dPre) := by
        rcases hdelcase : del with _ | ⟨d0, delT⟩
        · subst hdelcase
          exact ⟨off, [], dPre, rfl, hDeq,
            fun d hd => Nat.lt_succ_of_lt (hdPre d hd), by simp, hoff,
            by omega, fun _ => ⟨rfl, rfl, rfl⟩⟩
        · subst hdelcase
          have hsortdel : List.Sorted (· < ·) (d0 :: delT) := by
            rw [hDeq] at hD
            rw [List.Sorted, List.pairwise_append] at hD
            exact hD.2.1
          have hgtT : ∀ d ∈ delT, d0 < d := List.rel_of_sorted_cons hsortdel
          by_cases hd0 : d0 = n
          · subst hd0
            refine ⟨off - 1, delT, dPre ++ [d0],
              dropDel_cons_eq d0 off delT hgtT, by simpa using hDeq, ?_, ?_,
              ?_, by omega, ?_⟩
            · intro d hd
              rcases List.mem_append.1 hd with hd | hd
              · exact Nat.lt_succ_of_lt (hdPre d hd)
              · simp at hd
                omega
            · intro d hd
              exact hgtT d hd
            · simp only [List.length_append, List.length_singleton]
              push_cast
              omega
            · intro hnD
              exfalso
              apply hnD
              rw [hDeq]
              simp
          · have hgt : ∀ d ∈ d0 :: delT, n < d := by
              intro d hd
              rcases List.mem_cons.1 hd with hd | hd
              · subst hd
                have := hdel d (List.mem_cons_self _ _)
                omega
              · have h1 := hdel d0 (List.mem_cons_self _ _)
                have h2 := hgtT d hd
                omega
            exact ⟨off, d0 :: delT, dPre, dropDel_gt n off _ hgt, hDeq,
              fun d hd => Nat.lt_succ_of_lt (hdPre d hd),
              fun d hd => hgt d hd, hoff, by omega,
              fun _ => ⟨rfl, rfl, rfl⟩⟩
      have hsortadd : add.Sorted (· ≤ ·) := by
        rw [hAeq] at hA
        rw [List.Sorted, List.pairwise_append] at hA
        exact hA.2.1
      obtain ⟨con, rest, hconrest, hda, hcon, hrest⟩ :=
        dropAdd_spec n add off1 hsortadd
      have hAeq2 : A = (aPre ++ con) ++ rest := by
        rw [hAeq, hconrest, List.append_assoc]
      simp only [calcAux, hdd, hda]
      by_cases hmn : m = n
      · subst hmn
        obtain ⟨ho1, ho2, ho3⟩ := hsame hmD
        rw [ho1] at hcon hrest ⊢
        have hle1 : ∀ a ∈ aPre ++ con,
            (a : Int) ≤ (m : Int) + (off + con.length) := by
          intro a ha
          rcases List.mem_append.1 ha with ha | ha
          · have h1 := haPre a ha
            have h2 : (0 : Int) ≤ con.length := by positivity
            omega
          · have := hcon a ha
            omega
        have hpA : countLe ((m : Int) + (off + con.length)) A
            = aPre.length + con.length := by
          rw [hAeq2, countLe_append, countLe_of_all_le _ _ hle1,
            countLe_of_all_gt _ _ hrest, List.length_append]
          omega
        have hled : ∀ d ∈ dPre, (d : Int) ≤ ((m : Nat) : Int) := by
          intro d hd
          have := hdPre d hd
          omega
        have hgtd : ∀ d ∈ del, ((m : Nat) : Int) < (d : Int) := by
          intro d hd
          have h1 := hdel d hd
          have h2 : d ≠ m := by
            intro hdm
            exact hmD (by rw [hDeq]; exact List.mem_append_right _ (hdm ▸ hd))
          omega
        have hpD : countLe ((m : Int)) D = dPre.length := by
          rw [hDeq, countLe_append, countLe_of_all_le _ _ hled,
            countLe_of_all_gt _ _ hgtd]
          omega
        refine ⟨(m : Int) + (off + con.length), by simp [alookup], ?_, ?_⟩
        · rw [hpA, hpD, hoff]
          push_cast
          ring
        · intro a ha
          rw [hAeq2] at ha
          rcases List.mem_append.1 ha with ha | ha
          · rcases List.mem_append.1 ha with ha | ha
            · have h1 := haPre a ha
              have h2 : (0 : Int) ≤ con.length := by positivity
              omega
            · have := hcon a ha
              omega
          · have := hrest a ha
            omega
      · have halt : alookup ((n, some ((n : Int) + (off1 + con.length))) ::
            calcAux (n + 1) k del1 rest (off1 + con.length)) m
            = alookup (calcAux (n + 1) k del1 rest (off1 + con.length)) m := by
          have : ¬ (n = m) := fun h => hmn h.symm
          simp [alookup, this]
        rw [halt]
        refine ih (n + 1) del1 rest dPre1 (aPre ++ con) (off1 + con.length)
          hDeq1 hAeq2 (by omega) hdPre1 hdel1 ?_ ?_ ?_ m (by omega) (by omega)
          hmD
        · intro a ha
          rcases List.mem_append.1 ha with ha | ha
          · have h1 := haPre a ha
            have h2 : (0 : Int) ≤ con.length := by positivity
            push_cast
            omega
          · have := hcon a ha
            push_cast
            omega
        · intro a ha
          have := hrest a ha
          push_cast
          omega
        · rw [hoff1, List.length_append]
          push_cast
          ring

/-- Claim C2 (amended): for any per-file mapping with duplicate-free positive
deleted lines and positive added lines, every old line in the computed range
`1..max_line` untouched by any hunk is mapped to the concrete position
`p = oldLine + (added lines at or before p) - (deleted lines at or before
oldLine)` — the net offset of all prior insertions and deletions — and `p` is
never an inserted position.  (Deleted old lines are also mapped to concrete
positions, not to absent; see the counterexample.) -/
theorem untouched_line_new_position (fm : FileMappings)
    (hndd : fm.deleted.Nodup)
    (hdpos : ∀ d ∈ fm.deleted, 1 ≤ d)
    (hapos : ∀ a ∈ fm.added, 1 ≤ a)
    (n : Nat) (h1 : 1 ≤ n) (h2 : n ≤ maxLineOf fm) (hn : n ∉ fm.deleted) :
    ∃ p : Int,
      alookup (calculate_file_line_mapping fm) n = some (some p) ∧
      p = (n : Int) + (countLe p fm.added : Int)
        - (countLe ((n : Nat) : Int) fm.deleted : Int) ∧
      ∀ a ∈ fm.added, (a : Int) ≠ p := by
  have hpermD := List.perm_insertionSort (· ≤ ·) fm.deleted
  have hpermA := List.perm_insertionSort (· ≤ ·) fm.added
  have hDle : (List.insertionSort (· ≤ ·) fm.deleted).Sorted (· ≤ ·) :=
    List.sorted_insertionSort _ _
  have hDnd : (List.insertionSort (· ≤ ·) fm.deleted).Nodup :=
    hpermD.nodup_iff.2 hndd
  have hDlt : (List.insertionSort (· ≤ ·) fm.deleted).Sorted (· < ·) :=
    (List.Pairwise.and hDle hDnd).imp (fun hab => lt_of_le_of_ne hab.1 hab.2)
  have hAle : (List.insertionSort (· ≤ ·) fm.added).Sorted (· ≤ ·) :=
    List.sorted_insertionSort _ _
  obtain ⟨p, hlook, heq, hne⟩ :=
    calcAux_spec (List.insertionSort (· ≤ ·) fm.deleted)
      (List.insertionSort (· ≤ ·) fm.added) hDlt hAle (maxLineOf fm) 1
      (List.insertionSort (· ≤ ·) fm.deleted)
      (List.insertionSort (· ≤ ·) fm.added) [] [] 0 (by simp) (by simp)
      le_rfl (by simp) (fun d hd => hdpos d (hpermD.subset hd)) (by simp)
      (fun a ha => by
        have := hapos a (hpermA.subset ha)
        push_cast
        omega)
      (by simp) n h1 (by omega) (fun hmem => hn (hpermD.subset hmem))
  have hcalc : calculate_file_line_mapping fm
      = calcAux 1 (maxLineOf fm) (List.insertionSort (· ≤ ·) fm.deleted)
        (List.insertionSort (· ≤ ·) fm.added) 0 := rfl
  refine ⟨p, ?_, ?_, ?_⟩
  · rw [hcalc]
    exact hlook
  · rw [countLe_perm p hpermA, countLe_perm _ hpermD] at heq
    exact heq
  · intro a ha
    exact hne a (hpermA.mem_iff.2 ha)

/-- Two-hunk fixture for the remapper characterization: lines 2 and 3
deleted, new lines 4, 5 and 6 inserted. -/
def fmWitness : FileMappings :=
  process_hunks ["@@ -2,2 +2,0 @@".toList, "@@ -6,0 +4,3 @@".toList]

/-- Witness for claim C2 (amended) at the two-hunk fixture, evaluated at the
untouched old line 5. -/
theorem untouched_line_new_position_witness :
    fmWitness.deleted.Nodup ∧ (∀ d ∈ fmWitness.deleted, 1 ≤ d) ∧
    (∀ a ∈ fmWitness.added, 1 ≤ a) ∧ 5 ∉ fmWitness.deleted ∧
    ∃ p : Int,
      alookup (calculate_file_line_mapping fmWitness) 5 = some (some p) ∧
      p = (5 : Int) + (countLe p fmWitness.added : Int)
        - (countLe ((5 : Nat) : Int) fmWitness.deleted : Int) ∧
      ∀ a ∈ fmWitness.added, (a : Int) ≠ p :=
  ⟨by decide, by decide, by decide, by decide,
    untouched_line_new_position fmWitness (by decide) (by decide) (by decide)
      5 (by decide) (by decide) (by decide)⟩

/-! ### Hunk header grammar lemmas -/

/-- The digit scan splits off exactly a given all-digit prefix when the next
character is not a digit. -/
theorem takeDigits_append (ds : List Char) (c : Char) (r : List Char)
    (hds : ∀ x ∈ ds, x.isDigit = true) (hc : c.isDigit = false) :
    takeDigits (ds ++ c :: r) = (ds, c :: r) := by
  induction ds with
  | nil => simp [takeDigits, hc]
  | cons d ds' ih =>
      have hd := hds d (List.mem_cons_self _ _)
      rw [List.cons_append, takeDigits]
      simp only [hd, if_true]
      rw [ih (fun x hx => hds x (List.mem_cons_of_mem _ hx))]

/-- The digit scan decomposes its input into an all-digit prefix and a rest
that does not start with a digit. -/
theorem takeDigits_spec (cs : List Char) :
    cs = (takeDigits cs).1 ++ (takeDigits cs).2 ∧
    (∀ x ∈ (takeDigits cs).1, x.isDigit = true) ∧
    (∀ c r, (takeDigits cs).2 = c :: r → c.isDigit = false) := by
  induction cs with
  | nil => simp [takeDigits]
  | cons c cs' ih =>
      by_cases hc : c.isDigit
      · rw [takeDigits]
        simp only [hc, if_true]
        refine ⟨?_, ?_, ?_⟩
        · simpa using ih.1
        · intro x hx
          rcases List.mem_cons.1 hx with hx | hx
          · subst hx; exact hc
          · exact ih.2.1 x hx
        · exact ih.2.2
      · rw [takeDigits]
        simp only [hc, if_false, Bool.false_eq_true]
        refine ⟨by simp, by simp, ?_⟩
        intro c' r' hc'
        have : c' = c := by
          have := congrArg (fun l => List.head? l) hc'
          simpa using this.symm
        subst this
        simpa using hc

/-- Forward reading of the new-range part of the parser: success implies the
input has the literal shape ` +c[,d] @@rest` with the parsed values. -/
theorem parseNewPart_some (os oc : Nat) (l : List Char) (h : Hunk)
    (hp : parseNewPart os oc l = some h) :
    ∃ cs ds rest, isDigitStr cs ∧ optDigitStr ds ∧
      l = [' ', '+'] ++ cs ++ optComma ds ++ [' ', '@', '@'] ++ rest ∧
      h = ⟨os, oc, digitsToNat cs, optVal ds⟩ := by
  rw [parseNewPart.eq_def] at hp
  split at hp
  case h_2 => exact absurd hp (by simp)
  case h_1 rest0 =>
    obtain ⟨hsplit, hdig, -⟩ := takeDigits_spec rest0
    split at hp
    case h_1 r heq => exact absurd hp (by simp)
    case h_2 c3 cs3 r3 heq =>
      rw [heq] at hsplit hdig
      simp only at hsplit hdig
      split at hp
      case h_2 tail =>
        injection hp with hp
        refine ⟨c3 :: cs3, none, tail, ⟨by simp, hdig⟩, trivial, ?_, hp.symm⟩
        rw [hsplit]
        simp [optComma]
      case h_3 hne1 hne2 => exact absurd hp (by simp)
      case h_1 r4 =>
        obtain ⟨hsplit2, hdig2, -⟩ := takeDigits_spec r4
        split at hp
        case h_1 r heq2 => exact absurd hp (by simp)
        case h_2 d4 ds4 r5 heq2 =>
          rw [heq2] at hsplit2 hdig2
          simp only at hsplit2 hdig2
          split at hp
          case h_2 hne => exact absurd hp (by simp)
          case h_1 tail =>
            injection hp with hp
            refine ⟨c3 :: cs3, some (d4 :: ds4), tail, ⟨by simp, hdig⟩,
              ⟨by simp, hdig2⟩, ?_, hp.symm⟩
            rw [hsplit, hsplit2]
            simp [optComma]

/-- Definitional reduction of the parser on a line starting `@@ -`. -/
theorem parse_hunk_header_cons (r : List Char) :
    parse_hunk_header ('@' :: '@' :: ' ' :: '-' :: r)
      = match takeDigits r with
        | ([], _) => none
        | (c1 :: cs1, r1) =>
            match r1 with
            | ',' :: r2 =>
                match takeDigits r2 with
                | ([], _) => none
                | (d2 :: ds2, r3) =>
                    parseNewPart (digitsToNat (c1 :: cs1))
                      (digitsToNat (d2 :: ds2)) r3
            | _ => parseNewPart (digitsToNat (c1 :: cs1)) 1 r1 := rfl

/-- Definitional reduction of the new-range parser on input starting ` +`. -/
theorem parseNewPart_cons (os oc : Nat) (r : List Char) :
    parseNewPart os oc (' ' :: '+' :: r)
      = match takeDigits r with
        | ([], _) => none
        | (c3 :: cs3, r3) =>
            match r3 with
            | ',' :: r4 =>
                match takeDigits r4 with
                | ([], _) => none
                | (d4 :: ds4, r5) =>
                    match r5 with
                    | ' ' :: '@' :: '@' :: _ =>
                        some ⟨os, oc, digitsToNat (c3 :: cs3),
                          digitsToNat (d4 :: ds4)⟩
                    | _ => none
            | ' ' :: '@' :: '@' :: _ => some ⟨os, oc, digitsToNat (c3 :: cs3), 1⟩
            | _ => none := rfl

/-- Backward reading of the new-range parser: a literal ` +c[,d] @@` input
parses to the given numbers. -/
theorem parseNewPart_shape (os oc : Nat) (cs : List Char)
    (ds : Option (List Char)) (rest : List Char) (hcs : isDigitStr cs)
    (hds : optDigitStr ds) :
    parseNewPart os oc
        ([' ', '+'] ++ cs ++ optComma ds ++ [' ', '@', '@'] ++ rest)
      = some ⟨os, oc, digitsToNat cs, optVal ds⟩ := by
  obtain ⟨hcne, hcdig⟩ := hcs
  cases cs with
  | nil => exact absurd rfl hcne
  | cons c0 cs' =>
      cases ds with
      | none =>
          have e : [' ', '+'] ++ (c0 :: cs') ++ optComma none ++
              [' ', '@', '@'] ++ rest
              = ' ' :: '+' :: ((c0 :: cs') ++ (' ' :: '@' :: '@' :: rest)) := by
            simp [optComma]
          rw [e, parseNewPart_cons]
          have e1 := takeDigits_append (c0 :: cs') ' ' ('@' :: '@' :: rest)
            hcdig (by decide)
          simp only [List.cons_append, List.append_assoc] at e1 ⊢
          simp only [e1]
          rfl
      | some dsl =>
          obtain ⟨hdne, hddig⟩ := hds
          cases dsl with
          | nil => exact absurd rfl hdne
          | cons d0 ds' =>
              have e : [' ', '+'] ++ (c0 :: cs') ++ optComma (some (d0 :: ds')) ++
                  [' ', '@', '@'] ++ rest
                  = ' ' :: '+' :: ((c0 :: cs') ++
                    (',' :: ((d0 :: ds') ++ (' ' :: '@' :: '@' :: rest)))) := by
                simp [optComma]
              rw [e, parseNewPart_cons]
              have e1 := takeDigits_append (c0 :: cs') ','
                ((d0 :: ds') ++ (' ' :: '@' :: '@' :: rest)) hcdig (by decide)
              have e2 := takeDigits_append (d0 :: ds') ' ' ('@' :: '@' :: rest)
                hddig (by decide)
              simp only [List.cons_append, List.append_assoc] at e1 e2 ⊢
              simp only [e1]
              simp only [e2]
              rfl

/-- Backward reading of the hunk-header parser: a line of the literal shape
`@@ -a[,b] +c[,d] @@...` parses to the four numbers with missing counts 1. -/
theorem parse_hunk_header_shape (as : List Char) (bs : Option (List Char))
    (cs : List Char) (ds : Option (List Char)) (rest : List Char)
    (has : isDigitStr as) (hbs : optDigitStr bs) (hcs : isDigitStr cs)
    (hds : optDigitStr ds) :
    parse_hunk_header (hunkShape as bs cs ds rest)
      = some ⟨digitsToNat as, optVal bs, digitsToNat cs, optVal ds⟩ := by
  obtain ⟨hane, hadig⟩ := has
  cases as with
  | nil => exact absurd rfl hane
  | cons a0 as' =>
      cases bs with
      | none =>
          have e : hunkShape (a0 :: as') none cs ds rest
              = '@' :: '@' :: ' ' :: '-' :: ((a0 :: as') ++
                (' ' :: '+' :: (cs ++ optComma ds ++ (' ' :: '@' :: '@' :: rest)))) := by
            simp [hunkShape, optComma]
          rw [e, parse_hunk_header_cons]
          have e1 := takeDigits_append (a0 :: as') ' '
            ('+' :: (cs ++ optComma ds ++ (' ' :: '@' :: '@' :: rest)))
            hadig (by decide)
          simp only [List.cons_append, List.append_assoc] at e1 ⊢
          simp only [e1]
          have hmain := parseNewPart_shape (digitsToNat (a0 :: as')) 1 cs ds
            rest hcs hds
          simp only [List.cons_append, List.append_assoc] at hmain
          exact hmain
      | some bsl =>
          obtain ⟨hbne, hbdig⟩ := hbs
          cases bsl with
          | nil => exact absurd rfl hbne
          | cons b0 bs' =>
              have e : hunkShape (a0 :: as') (some (b0 :: bs')) cs ds rest
                  = '@' :: '@' :: ' ' :: '-' :: ((a0 :: as') ++
                    (',' :: ((b0 :: bs') ++ (' ' :: '+' :: (cs ++ optComma ds ++
                      (' ' :: '@' :: '@' :: rest)))))) := by
                simp [hunkShape, optComma]
              rw [e, parse_hunk_header_cons]
              have e1 := takeDigits_append (a0 :: as') ','
                ((b0 :: bs') ++ (' ' :: '+' :: (cs ++ optComma ds ++
                  (' ' :: '@' :: '@' :: rest)))) hadig (by decide)
              have e2 := takeDigits_append (b0 :: bs') ' '
                ('+' :: (cs ++ optComma ds ++ (' ' :: '@' :: '@' :: rest)))
                hbdig (by decide)
              simp only [List.cons_append, List.append_assoc] at e1 e2 ⊢
              simp only [e1]
              simp only [e2]
              have hmain := parseNewPart_shape (digitsToNat (a0 :: as'))
                (digitsToNat (b0 :: bs')) cs ds rest hcs hds
              simp only [List.cons_append, List.append_assoc] at hmain
              exact hmain

/-- Forward reading of the hunk-header parser: success implies the line has
the literal shape `@@ -a[,b] +c[,d] @@...` and the hunk carries its numbers. -/
theorem parse_hunk_header_some (l : List Char) (h : Hunk)
    (hp : parse_hunk_header l = some h) :
    ∃ as bs cs ds rest, isDigitStr as ∧ optDigitStr bs ∧ isDigitStr cs ∧
      optDigitStr ds ∧ l = hunkShape as bs cs ds rest ∧
      h = ⟨digitsToNat as, optVal bs, digitsToNat cs, optVal ds⟩ := by
  rw [parse_hunk_header.eq_def] at hp
  split at hp
  case h_2 => exact absurd hp (by simp)
  case h_1 rest0 =>
    obtain ⟨hsplit, hdig, -⟩ := takeDigits_spec rest0
    split at hp
    case h_1 r heq => exact absurd hp (by simp)
    case h_2 c1 cs1 r1 heq =>
      rw [heq] at hsplit hdig
      simp only at hsplit hdig
      split at hp
      case h_2 =>
        obtain ⟨nc, nd, nrest, hnc, hnd, hshp, hh⟩ :=
          parseNewPart_some _ _ _ _ hp
        refine ⟨c1 :: cs1, none, nc, nd, nrest, ⟨by simp, hdig⟩, trivial,
          hnc, hnd, ?_, hh⟩
        rw [hsplit, hshp]
        simp [hunkShape, optComma]
      case h_1 r2 =>
        obtain ⟨hsplit2, hdig2, -⟩ := takeDigits_spec r2
        split at hp
        case h_1 r heq2 => exact absurd hp (by simp)
        case h_2 d2 ds2 r3 heq2 =>
          rw [heq2] at hsplit2 hdig2
          simp only at hsplit2 hdig2
          obtain ⟨nc, nd, nrest, hnc, hnd, hshp, hh⟩ :=
            parseNewPart_some _ _ _ _ hp
          refine ⟨c1 :: cs1, some (d2 :: ds2), nc, nd, nrest, ⟨by simp, hdig⟩,
            ⟨by simp, hdig2⟩, hnc, hnd, ?_, hh⟩
          rw [hsplit, hsplit2, hshp]
          simp [hunkShape, optComma]

/-- Claim C9: the hunk-header parser accepts exactly the lines of shape
`@@ -a[,b] +c[,d] @@...`, yielding `(oldStart, oldCount, newStart, newCount)`
with each missing count defaulting to 1, and any non-matching line yields
"not a hunk", which contributes no mapping in `_process_hunks` (the parser is
a total function, so malformed headers are skipped without raising). -/
theorem hunk_header_parser_grammar :
    (∀ (l : List Char) (h : Hunk),
      parse_hunk_header l = some h ↔
      ∃ as bs cs ds rest, isDigitStr as ∧ optDigitStr bs ∧ isDigitStr cs ∧
        optDigitStr ds ∧ l = hunkShape as bs cs ds rest ∧
        h = ⟨digitsToNat as, optVal bs, digitsToNat cs, optVal ds⟩) ∧
    (∀ (l : List Char) (fm : FileMappings),
      parse_hunk_header l = none → processHunksStep fm l = fm) := by
  constructor
  · intro l h
    constructor
    · exact parse_hunk_header_some l h
    · rintro ⟨as, bs, cs, ds, rest, has, hbs, hcs, hds, hl, hh⟩
      subst hl
      subst hh
      exact parse_hunk_header_shape as bs cs ds rest has hbs hcs hds
  · intro l fm hnone
    simp [processHunksStep, hnone]

/-- Witness for claim C9: the Scenario A header `@@ -5,0 +5,3 @@ x` parses to
`(5, 0, 5, 3)` and therefore has the grammar shape, while the malformed line
`@@ -a,2 +1 @@` is rejected and contributes nothing. -/
theorem hunk_header_parser_grammar_witness :
    parse_hunk_header "@@ -5,0 +5,3 @@ x".toList = some ⟨5, 0, 5, 3⟩ ∧
    (∃ as bs cs ds rest, isDigitStr as ∧ optDigitStr bs ∧ isDigitStr cs ∧
      optDigitStr ds ∧ "@@ -5,0 +5,3 @@ x".toList = hunkShape as bs cs ds rest ∧
      (⟨5, 0, 5, 3⟩ : Hunk)
        = ⟨digitsToNat as, optVal bs, digitsToNat cs, optVal ds⟩) ∧
    processHunksStep ⟨[], []⟩ "@@ -a,2 +1 @@".toList = ⟨[], []⟩ :=
  ⟨by decide,
    (hunk_header_parser_grammar.1 "@@ -5,0 +5,3 @@ x".toList ⟨5, 0, 5, 3⟩).mp
      (by decide),
    hunk_header_parser_grammar.2 "@@ -a,2 +1 @@".toList ⟨[], []⟩ (by decide)⟩

/-! ### First-per-key lemmas for the lint-output parser -/

/-- The fuel-indexed first-occurrence filter is fuel-irrelevant once the fuel
covers the list length. -/
theorem firstPerKeyAux_congr :
    ∀ (f1 f2 : Nat) (l : List Violation), l.length ≤ f1 → l.length ≤ f2 →
      firstPerKeyAux f1 l = firstPerKeyAux f2 l := by
  intro f1
  induction f1 with
  | zero =>
      intro f2 l h1 _
      have : l = [] := List.length_eq_zero.1 (Nat.le_zero.1 h1)
      subst this
      cases f2 with
      | zero => rfl
      | succ f2' => rfl
  | succ f1' ih =>
      intro f2 l h1 h2
      cases l with
      | nil =>
          cases f2 with
          | zero => rfl
          | succ f2' => rfl
      | cons v vs =>
          cases f2 with
          | zero => simp at h2
          | succ f2' =>
              simp only [firstPerKeyAux]
              congr 1
              exact ih f2' _
                (le_trans (List.length_filter_le _ _) (by simpa using h1))
                (le_trans (List.length_filter_le _ _) (by simpa using h2))

/-- Unfolding of the first-occurrence filter on a cons cell. -/
theorem firstPerKey_cons (v : Violation) (vs : List Violation) :
    firstPerKey (v :: vs)
      = v :: firstPerKey (vs.filter (fun w => keyOf w ≠ keyOf v)) := by
  show firstPerKeyAux (v :: vs).length (v :: vs) = _
  simp only [List.length_cons, firstPerKeyAux]
  congr 1
  exact firstPerKeyAux_congr vs.length _ _ (List.length_filter_le _ _) le_rfl

/-- The first-occurrence filter yields a subsequence of its input. -/
theorem firstPerKey_sublist : ∀ (l : List Violation), (firstPerKey l).Sublist l
  | [] => by simp [firstPerKey, firstPerKeyAux]
  | v :: vs => by
      rw [firstPerKey_cons]
      exact ((firstPerKey_sublist _).trans (List.filter_sublist _)).cons₂ v
termination_by l => l.length
decreasing_by
  simp only [List.length_cons]
  exact Nat.lt_succ_of_le (List.length_filter_le _ _)

/-- The first-occurrence filter keeps at most one element per identity key. -/
theorem firstPerKey_keys_nodup :
    ∀ (l : List Violation), ((firstPerKey l).map keyOf).Nodup
  | [] => by simp [firstPerKey, firstPerKeyAux]
  | v :: vs => by
      rw [firstPerKey_cons]
      rw [List.map_cons, List.nodup_cons]
      constructor
      · intro hmem
        obtain ⟨w, hw, hkw⟩ := List.mem_map.1 hmem
        have hw' := (firstPerKey_sublist _).subset hw
        have := List.of_mem_filter hw'
        simp only [decide_eq_true_eq] at this
        exact this hkw
      · exact firstPerKey_keys_nodup _
termination_by l => l.length
decreasing_by
  simp only [List.length_cons]
  exact Nat.lt_succ_of_le (List.length_filter_le _ _)

/-- Restricting by a fresh key first is the same as one combined restriction. -/
theorem filter_key_cons (v : Violation) (seen : List VKey)
    (l : List Violation) :
    (l.filter (fun w => keyOf w ∉ seen)).filter
        (fun w => keyOf w ≠ keyOf v)
      = l.filter (fun w => keyOf w ∉ (keyOf v :: seen)) := by
  rw [List.filter_filter]
  apply List.filter_congr
  intro w _
  by_cases h1 : keyOf w ∈ seen <;> by_cases h2 : keyOf w = keyOf v <;>
    simp [h1, h2, List.mem_cons]

/-- The raw violation stream a list of flake8 lines yields, before dedup. -/
def parsedStream (ctx : String → String → String)
    (lines : List (List Char)) : List Violation :=
  lines.filterMap
    (fun l =>
      match parseFlakeLine ctx l with
      | .viol v => some v
      | _ => none)

/-- The dedup loop of `parse_flake8_output` computes exactly the
first-occurrence-per-unseen-key filter of the raw violation stream. -/
theorem parseFlake8Go_spec (ctx : String → String → String) :
    ∀ (lines : List (List Char)) (seen : List VKey) (acc vs : List Violation),
      parseFlake8Go ctx lines seen acc = some vs →
      vs = acc ++ firstPerKey
        ((parsedStream ctx lines).filter (fun v => keyOf v ∉ seen)) := by
  intro lines
  induction lines with
  | nil =>
      intro seen acc vs h
      simp only [parseFlake8Go] at h
      injection h with h
      simp [parsedStream, firstPerKey, firstPerKeyAux, h.symm]
  | cons l ls ih =>
      intro seen acc vs h
      rw [parseFlake8Go] at h
      rcases hr : parseFlakeLine ctx l with _ | _ | v
      all_goals rw [hr] at h
      · have hstream : parsedStream ctx (l :: ls) = parsedStream ctx ls := by
          simp [parsedStream, hr]
        rw [hstream]
        exact ih seen acc vs h
      · exact absurd h (by simp)
      · have hstream : parsedStream ctx (l :: ls) = v :: parsedStream ctx ls := by
          simp [parsedStream, hr]
        rw [hstream]
        have h2 : (if keyOf v ∈ seen then parseFlake8Go ctx ls seen acc
            else parseFlake8Go ctx ls (keyOf v :: seen) (acc ++ [v]))
            = some vs := h
        by_cases hv : keyOf v ∈ seen
        · rw [if_pos hv] at h2
          have := ih seen acc vs h2
          rw [this]
          congr 2
          rw [List.filter_cons]
          simp [hv]
        · rw [if_neg hv] at h2
          have := ih (keyOf v :: seen) (acc ++ [v]) vs h2
          rw [this]
          rw [List.filter_cons]
          have hkeep : (decide (keyOf v ∉ seen)) = true := by simpa using hv
          simp only [hkeep, if_true]
          rw [firstPerKey_cons, filter_key_cons]
          simp

/-- Claim C10: a successful `parse_flake8_output` returns exactly the
first-occurrence-per-`(errorCode, filePath, lineNumber)`-key subsequence of
the parsed violation stream, in output order: at most one violation per key,
always the first reported one, with the stream order preserved. -/
theorem flake8_dedup_first_per_key (ctx : String → String → String)
    (output : String) (vs : List Violation)
    (h : parse_flake8_output ctx output = some vs) :
    vs = firstPerKey (allParsedViolations ctx output) ∧
    (vs.map keyOf).Nodup ∧
    vs.Sublist (allParsedViolations ctx output) := by
  have hall : allParsedViolations ctx output
      = parsedStream ctx (splitPred (fun c => c = Char.ofNat 10) output.toList) := by
    rfl
  have hgo := parseFlake8Go_spec ctx
    (splitPred (fun c => c = Char.ofNat 10) output.toList) [] [] vs h
  have hfilter : (parsedStream ctx
      (splitPred (fun c => c = Char.ofNat 10) output.toList)).filter
        (fun v => keyOf v ∉ ([] : List VKey))
      = parsedStream ctx (splitPred (fun c => c = Char.ofNat 10) output.toList) := by
    apply List.filter_eq_self.2
    intro a _
    simp
  rw [hfilter] at hgo
  simp only [List.nil_append] at hgo
  refine ⟨by rw [hall, hgo], ?_, ?_⟩
  · rw [hgo]
    exact firstPerKey_keys_nodup _
  · rw [hall, hgo]
    exact firstPerKey_sublist _

/-- Context oracle for the lint-parser witness. -/
def ctxW : String → String → String := fun _ _ => "c"

/-- A flake8 output fixture: two violations with the same
`(errorCode, filePath, lineNumber)` key differing in message, plus a
malformed line. -/
def outW : String := "a.py:1:1: E1 x\na.py:1:2: E1 y\nbad"

/-- The single violation the parser keeps for `outW`: the first per key. -/
def vW : Violation := ⟨"E1", "a.py", "E1 x", "c", "1"⟩

/-- Witness for claim C10 at the fixture: only the first of the two
same-key violations is returned, in order. -/
theorem flake8_dedup_first_per_key_witness :
    parse_flake8_output ctxW outW = some [vW] ∧
    ([vW] = firstPerKey (allParsedViolations ctxW outW) ∧
      ([vW].map keyOf).Nodup ∧
      [vW].Sublist (allParsedViolations ctxW outW)) :=
  ⟨rfl, flake8_dedup_first_per_key ctxW outW [vW] rfl⟩

end DiffDataset
